import Mathlib

/-!
Verification of the statDash statistical simulation core
(`src-tauri/src/simulations.rs`).

Floating-point values are modelled by an idealized IEEE double: exact real
arithmetic extended with the special values NaN, +∞ and −∞ (type `F`).
Rounding is not modelled; every claim checked here is about control flow,
counts, ordering and exact formulas, none of which depend on rounding.

The external statrs Student-t distribution is modelled abstractly: its CDF
and inverse CDF are parameters of the embedded functions, and the
constructor `StudentsT::new(0,1,df)` is modelled as failing exactly when
`df ≤ 0` (statrs rejects non-positive degrees of freedom).  The
pseudorandom source is modelled, as the spec's §9 prescribes, as an
explicitly threaded tape of standard-normal draws `ℕ → ℝ`.
-/

open scoped Classical

namespace StatDash

/-- Idealized IEEE f64: a real number, NaN, or a signed infinity. -/
inductive F where
  | nan : F
  | pinf : F
  | ninf : F
  | fin : ℝ → F
deriving Inhabited

namespace F

/-- IEEE negation. -/
def neg : F → F
  | nan => nan
  | pinf => ninf
  | ninf => pinf
  | fin x => fin (-x)

/-- IEEE addition (exact on finite values). -/
def add : F → F → F
  | nan, _ => nan
  | _, nan => nan
  | pinf, ninf => nan
  | ninf, pinf => nan
  | pinf, _ => pinf
  | _, pinf => pinf
  | ninf, _ => ninf
  | _, ninf => ninf
  | fin x, fin y => fin (x + y)

/-- IEEE subtraction. -/
def sub (a b : F) : F := add a (neg b)

/-- IEEE multiplication (exact on finite values). -/
noncomputable def mul : F → F → F
  | nan, _ => nan
  | _, nan => nan
  | pinf, pinf => pinf
  | pinf, ninf => ninf
  | ninf, pinf => ninf
  | ninf, ninf => pinf
  | pinf, fin y => if y = 0 then nan else if 0 < y then pinf else ninf
  | fin x, pinf => if x = 0 then nan else if 0 < x then pinf else ninf
  | ninf, fin y => if y = 0 then nan else if 0 < y then ninf else pinf
  | fin x, ninf => if x = 0 then nan else if 0 < x then ninf else pinf
  | fin x, fin y => fin (x * y)

/-- IEEE division (exact on finite values; x/0 is a signed infinity, 0/0 NaN). -/
noncomputable def div : F → F → F
  | nan, _ => nan
  | _, nan => nan
  | pinf, pinf => nan
  | pinf, ninf => nan
  | ninf, pinf => nan
  | ninf, ninf => nan
  | pinf, fin y => if 0 ≤ y then pinf else ninf
  | ninf, fin y => if 0 ≤ y then ninf else pinf
  | fin _, pinf => fin 0
  | fin _, ninf => fin 0
  | fin x, fin y =>
      if y = 0 then (if x = 0 then nan else if 0 < x then pinf else ninf)
      else fin (x / y)

/-- IEEE square root (NaN on negative arguments). -/
noncomputable def sqrt : F → F
  | nan => nan
  | pinf => pinf
  | ninf => nan
  | fin x => if x < 0 then nan else fin (Real.sqrt x)

/-- `x.powi(2)`, i.e. `x * x`. -/
noncomputable def sq (a : F) : F := mul a a

/-- IEEE base-2 logarithm. -/
noncomputable def log2 : F → F
  | nan => nan
  | pinf => pinf
  | ninf => nan
  | fin x => if x < 0 then nan else if x = 0 then ninf else fin (Real.logb 2 x)

/-- IEEE absolute value. -/
def fabs : F → F
  | nan => nan
  | pinf => pinf
  | ninf => pinf
  | fin x => fin |x|

/-- IEEE `<=` as a proposition: NaN is unordered. -/
def le : F → F → Prop
  | nan, _ => False
  | _, nan => False
  | ninf, _ => True
  | pinf, pinf => True
  | pinf, ninf => False
  | pinf, fin _ => False
  | fin _, pinf => True
  | fin _, ninf => False
  | fin x, fin y => x ≤ y

/-- IEEE `<` as a proposition: NaN is unordered. -/
def lt : F → F → Prop
  | nan, _ => False
  | _, nan => False
  | ninf, ninf => False
  | ninf, pinf => True
  | ninf, fin _ => True
  | pinf, _ => False
  | fin _, pinf => True
  | fin _, ninf => False
  | fin x, fin y => x < y

/-- IEEE `==` as a proposition: NaN compares unequal to everything. -/
def feq : F → F → Prop
  | nan, _ => False
  | _, nan => False
  | pinf, pinf => True
  | ninf, ninf => True
  | fin x, fin y => x = y
  | _, _ => False

/-- `iter().sum::<f64>()`: left fold of IEEE addition starting from 0. -/
def lsum (l : List F) : F := l.foldl add (fin 0)

/-- A total boolean comparison used to model `sort_by(partial_cmp..unwrap)`:
it agrees with IEEE `<=` on non-NaN values (a run that reaches the sort
never holds NaN, as proved below, so the NaN ordering is immaterial). -/
noncomputable def ble (a b : F) : Bool :=
  match a, b with
  | nan, _ => true
  | _, nan => false
  | ninf, _ => true
  | _, ninf => false
  | _, pinf => true
  | pinf, _ => false
  | fin x, fin y => decide (x ≤ y)

/-- Insertion of one element into a `ble`-sorted list. -/
noncomputable def insertSorted (a : F) : List F → List F
  | [] => [a]
  | b :: l => if ble a b then a :: b :: l else b :: insertSorted a l

/-- Ascending sort, modelling `sort_by(|a, b| a.partial_cmp(b).unwrap())`. -/
noncomputable def sortAsc : List F → List F
  | [] => []
  | a :: l => insertSorted a (sortAsc l)

@[simp] theorem neg_fin (x : ℝ) : neg (fin x) = fin (-x) := rfl
@[simp] theorem add_fin (x y : ℝ) : add (fin x) (fin y) = fin (x + y) := rfl
@[simp] theorem sub_fin (x y : ℝ) : sub (fin x) (fin y) = fin (x - y) := by
  simp [sub, add, neg, sub_eq_add_neg]
@[simp] theorem mul_fin (x y : ℝ) : mul (fin x) (fin y) = fin (x * y) := rfl
@[simp] theorem fabs_fin (x : ℝ) : fabs (fin x) = fin |x| := rfl
@[simp] theorem le_fin (x y : ℝ) : le (fin x) (fin y) ↔ x ≤ y := Iff.rfl
@[simp] theorem lt_fin (x y : ℝ) : lt (fin x) (fin y) ↔ x < y := Iff.rfl
@[simp] theorem feq_fin (x y : ℝ) : feq (fin x) (fin y) ↔ x = y := Iff.rfl

theorem div_fin_of_ne (x : ℝ) {y : ℝ} (hy : y ≠ 0) :
    div (fin x) (fin y) = fin (x / y) := by
  simp [div, hy]

theorem sqrt_fin_of_nonneg {x : ℝ} (hx : 0 ≤ x) :
    sqrt (fin x) = fin (Real.sqrt x) := by
  simp [sqrt, not_lt.mpr hx]

theorem log2_fin_of_pos {x : ℝ} (hx : 0 < x) :
    log2 (fin x) = fin (Real.logb 2 x) := by
  simp [log2, not_lt.mpr hx.le, hx.ne.symm]

/-- Sum of a list of embedded reals is the embedded real sum. -/
theorem lsum_map_fin (l : List ℝ) : lsum (l.map fin) = fin l.sum := by
  suffices h : ∀ (l : List ℝ) (a : ℝ),
      (l.map fin).foldl add (fin a) = fin (a + l.sum) by
    simpa using h l 0
  intro l
  induction l with
  | nil => intro a; simp
  | cons x xs ih =>
      intro a
      simp only [List.map_cons, List.foldl_cons, add_fin, ih, List.sum_cons]
      ring_nf

end F

/-! ## Error messages (verbatim from simulations.rs) -/

def errStdMsg : String := "Standard deviations must be positive"

def errSizeMsg : String := "Sample size must be positive"

def errNumSimsMsg : String := "Number of simulations must be positive"

def errAlphaMsg : String := "Alpha level must be between 0 and 1"

def errConfMsg : String := "Confidence level must be between 0 and 1"

def errEmptyMsg : String := "Groups cannot be empty"

def errSeZeroMsg : String := "Pooled standard error is zero"

/-- Modelled from the spec (§7 `DistributionConstructionFailure`): the text
of the external statrs error for a rejected degrees-of-freedom parameter.
Only the fact that it differs from the validation messages matters. -/
def statrsFreedomMsg : String := "Freedom must be positive"

def errTDistHead : String := "Error creating t-distribution: "

def errTDistMsg : String := errTDistHead ++ statrsFreedomMsg

/-- Modelled from the spec (§7): `StudentsT::new(0.0, 1.0, df)` of the
external math library succeeds exactly when the degrees of freedom are
positive, yielding the distribution (represented by its df). -/
noncomputable def studentsTNew (df : ℝ) : Except String ℝ :=
  if 0 < df then .ok df else .error statrsFreedomMsg

/-! ## Data model -/

structure SimulationParams where
  group1_mean : ℝ
  group1_std : ℝ
  group2_mean : ℝ
  group2_std : ℝ
  sample_size_per_group : ℕ
  num_simulations : ℕ
  hypothesized_effect_size : ℝ
  alpha_level : ℝ

structure SimulationResult where
  p_value : F
  effect_size : F
  confidence_interval : F × F
  s_value : F
  significant : Bool

structure HistogramBin where
  bin_start : F
  bin_end : F
  count : ℕ
  significant : Bool
deriving Inhabited

structure AggregatedResults where
  individual_results : List SimulationResult
  p_value_histogram : List HistogramBin
  significant_count : ℕ
  total_count : ℕ
  mean_effect_size : F
  effect_size_ci : F × F
  ci_coverage : F
  mean_ci_width : F

/-! ## The statistical core, embedded function by function -/

/-- `generate_samples`: the thread-local RNG is modelled, as the spec's §9
prescribes, as an explicit tape `ω : ℕ → ℝ` of standard-normal draws read
from position `pos`; a drawn sample is `mean + std * z`.  (With the stds
already checked positive, `Normal::new` cannot fail, so its error branch
is dead and not modelled.) -/
noncomputable def generate_samples (ω : ℕ → ℝ) (pos : ℕ)
    (group1_mean group1_std group2_mean group2_std : ℝ) (n : ℕ) :
    Except String (List F × List F) :=
  if group1_std ≤ 0 ∨ group2_std ≤ 0 then .error errStdMsg
  else if n = 0 then .error errSizeMsg
  else .ok
    ((List.range n).map fun i => F.fin (group1_mean + group1_std * ω (pos + i)),
     (List.range n).map fun i => F.fin (group2_mean + group2_std * ω (pos + n + i)))

/-- `let mean = group.iter().sum::<f64>() / n` of `t_test`. -/
noncomputable def meanF (g : List F) : F := F.div (F.lsum g) (F.fin g.length)

/-- `let var = group.iter().map(|x| (x - mean).powi(2)).sum::<f64>() / (n - 1.0)`
of `t_test` (Bessel's correction). -/
noncomputable def varF (g : List F) : F :=
  F.div (F.lsum (g.map fun x => F.sq (F.sub x (meanF g))))
    (F.sub (F.fin g.length) (F.fin 1))

/-- `let pooled_se = ((var1 / n1) + (var2 / n2)).sqrt()` of `t_test`. -/
noncomputable def seF (group1 group2 : List F) : F :=
  F.sqrt (F.add (F.div (varF group1) (F.fin group1.length))
    (F.div (varF group2) (F.fin group2.length)))

/-- `let pooled_std = ((var1 + var2) / 2.0).sqrt()` of `t_test`. -/
noncomputable def pooledStdF (group1 group2 : List F) : F :=
  F.sqrt (F.div (F.add (varF group1) (varF group2)) (F.fin 2))

/-- `t_test`, the two-sample t-test.  `tCdf df x` models
`StudentsT::new(0,1,df).cdf(x)` of the external library. -/
noncomputable def t_test (tCdf : ℝ → F → F) (group1 group2 : List F) :
    Except String (F × F × F) :=
  if group1.isEmpty || group2.isEmpty then .error errEmptyMsg
  else if F.feq (seF group1 group2) (F.fin 0) then .error errSeZeroMsg
  else
    match studentsTNew ((group1.length : ℝ) + (group2.length : ℝ) - 2) with
    | .error e => .error (errTDistHead ++ e)
    | .ok dfv =>
      .ok (F.div (F.sub (meanF group1) (meanF group2)) (seF group1 group2),
           F.mul (F.fin 2) (F.sub (F.fin 1) (tCdf dfv
             (F.fabs (F.div (F.sub (meanF group1) (meanF group2))
               (seF group1 group2))))),
           F.div (F.sub (meanF group1) (meanF group2))
             (pooledStdF group1 group2))

/-- `calculate_confidence_interval`.  `tInv df q` models
`StudentsT::new(0,1,df).inverse_cdf(q)` of the external library (always
invoked at `q ∈ (1/2, 1)`, where the true inverse CDF is finite).  The
`usize` expression `n1 + n2 - 2` is modelled by truncated subtraction;
every claim checked below has `n1 + n2 > 2`, where the two agree. -/
noncomputable def calculate_confidence_interval (tInv : ℝ → ℝ → ℝ)
    (effect_size : F) (n1 n2 : ℕ) (confidence_level : ℝ) :
    Except String (F × F) :=
  if confidence_level ≤ 0 ∨ 1 ≤ confidence_level then .error errConfMsg
  else
    match studentsTNew ((n1 + n2 - 2 : ℕ) : ℝ) with
    | .error e => .error (errTDistHead ++ e)
    | .ok dfv =>
      .ok (F.sub effect_size
            (F.mul (F.fin (tInv dfv (1 - (1 - confidence_level) / 2)))
              (F.sqrt (F.add
                (F.div (F.add (F.fin n1) (F.fin n2))
                  (F.mul (F.fin n1) (F.fin n2)))
                (F.div (F.sq effect_size)
                  (F.mul (F.fin 2) (F.add (F.fin n1) (F.fin n2))))))),
           F.add effect_size
            (F.mul (F.fin (tInv dfv (1 - (1 - confidence_level) / 2)))
              (F.sqrt (F.add
                (F.div (F.add (F.fin n1) (F.fin n2))
                  (F.mul (F.fin n1) (F.fin n2)))
                (F.div (F.sq effect_size)
                  (F.mul (F.fin 2) (F.add (F.fin n1) (F.fin n2))))))))

/-- `calculate_s_value`. -/
noncomputable def calculate_s_value (p_value : F) : F :=
  if F.le p_value (F.fin 0) then F.pinf
  else if F.le (F.fin 1) p_value then F.fin 0
  else F.neg (F.log2 p_value)

/-- One bin of `create_p_value_histogram` (loop body for index `i`). -/
noncomputable def mkBin (p_values : List F) (alpha : F) (num_bins i : ℕ) :
    HistogramBin :=
  let bin_width : ℝ := 1 / (num_bins : ℝ)
  let bin_start : ℝ := i * bin_width
  let bin_end : ℝ := (i + 1) * bin_width
  let count : ℕ :=
    if i = num_bins - 1 then
      p_values.countP fun p =>
        decide (F.le (F.fin bin_start) p ∧ F.le p (F.fin bin_end))
    else
      p_values.countP fun p =>
        decide (F.le (F.fin bin_start) p ∧ F.lt p (F.fin bin_end))
  { bin_start := F.fin bin_start
    bin_end := F.fin bin_end
    count := count
    significant := decide (F.le (F.fin bin_end) alpha) }

/-- `create_p_value_histogram`. -/
noncomputable def create_p_value_histogram (p_values : List F) (alpha : F)
    (num_bins : ℕ) : List HistogramBin :=
  (List.range num_bins).map (mkBin p_values alpha num_bins)

/-- The per-trial accumulators of `run_simulation`'s loop. -/
structure TrialAccum where
  results : List SimulationResult
  p_values : List F
  effect_sizes : List F
  ci_widths : List F
  coverage_count : ℕ

/-- The trial loop of `run_simulation`: `k` remaining trials, reading the
random tape from position `pos`; trial outputs are accumulated in order. -/
noncomputable def runTrials (tCdf : ℝ → F → F) (tInv : ℝ → ℝ → ℝ)
    (ω : ℕ → ℝ) (p : SimulationParams) (true_effect_size : ℝ) :
    ℕ → ℕ → Except String TrialAccum
  | 0, _ => .ok ⟨[], [], [], [], 0⟩
  | k + 1, pos =>
    match generate_samples ω pos p.group1_mean p.group1_std
      p.group2_mean p.group2_std p.sample_size_per_group with
    | .error e => .error e
    | .ok (g1, g2) =>
      match t_test tCdf g1 g2 with
      | .error e => .error e
      | .ok (_, p_value, effect_size) =>
        match calculate_confidence_interval tInv effect_size
          p.sample_size_per_group p.sample_size_per_group 0.95 with
        | .error e => .error e
        | .ok ci =>
          match runTrials tCdf tInv ω p true_effect_size k
            (pos + 2 * p.sample_size_per_group) with
          | .error e => .error e
          | .ok rest =>
            .ok ⟨⟨p_value, effect_size, ci, calculate_s_value p_value,
                   decide (F.lt p_value (F.fin p.alpha_level))⟩ :: rest.results,
                 p_value :: rest.p_values,
                 effect_size :: rest.effect_sizes,
                 F.sub ci.2 ci.1 :: rest.ci_widths,
                 (if F.le ci.1 (F.fin true_effect_size) ∧
                     F.le (F.fin true_effect_size) ci.2 then 1 else 0) +
                   rest.coverage_count⟩

/-- `run_simulation`. -/
noncomputable def run_simulation (tCdf : ℝ → F → F) (tInv : ℝ → ℝ → ℝ)
    (ω : ℕ → ℝ) (p : SimulationParams) : Except String AggregatedResults :=
  if p.group1_std ≤ 0 ∨ p.group2_std ≤ 0 then .error errStdMsg
  else if p.sample_size_per_group = 0 then .error errSizeMsg
  else if p.num_simulations = 0 then .error errNumSimsMsg
  else if p.alpha_level ≤ 0 ∨ 1 ≤ p.alpha_level then .error errAlphaMsg
  else
    let true_effect_size : ℝ := (p.group1_mean - p.group2_mean) /
      Real.sqrt ((p.group1_std ^ 2 + p.group2_std ^ 2) / 2)
    match runTrials tCdf tInv ω p true_effect_size p.num_simulations 0 with
    | .error e => .error e
    | .ok acc =>
      let significant_count := acc.results.countP (·.significant)
      let mean_effect_size := F.div (F.lsum acc.effect_sizes)
        (F.fin acc.effect_sizes.length)
      let mean_ci_width := F.div (F.lsum acc.ci_widths)
        (F.fin acc.ci_widths.length)
      let ci_coverage := F.div (F.fin acc.coverage_count)
        (F.fin p.num_simulations)
      let sorted := F.sortAsc acc.effect_sizes
      let lower_idx : ℕ := ⌊(0.025 : ℝ) * acc.effect_sizes.length⌋₊
      let upper_idx : ℕ := ⌊(0.975 : ℝ) * acc.effect_sizes.length⌋₊
      let effect_size_ci := (sorted.getD lower_idx default,
        sorted.getD (min upper_idx (acc.effect_sizes.length - 1)) default)
      let p_value_histogram :=
        create_p_value_histogram acc.p_values (F.fin p.alpha_level) 20
      .ok ⟨acc.results, p_value_histogram, significant_count,
        p.num_simulations, mean_effect_size, effect_size_ci, ci_coverage,
        mean_ci_width⟩

/-! ## CSV export

The Rust `String` is modelled as a `List Char`; the `Display` rendering of
an f64 is an abstract parameter `render` (the claims only need that it
emits no newline, which holds of Rust's float formatting). -/

def headerStr : String :=
  "simulation_id,p_value,effect_size,ci_lower,ci_upper,s_value,significant"

def trueChars : List Char := ['t', 'r', 'u', 'e']

def falseChars : List Char := ['f', 'a', 'l', 's', 'e']

def digitChar (d : ℕ) : Char := Char.ofNat (48 + d)

/-- Decimal numeral of a natural number, most significant digit first. -/
def natChars (n : ℕ) : List Char :=
  if _h : n < 10 then [digitChar n]
  else natChars (n / 10) ++ [digitChar (n % 10)]
  termination_by n
  decreasing_by exact Nat.div_lt_self (by omega) (by omega)

/-- One data row of the CSV (0-based index `i`, rendered as `i + 1`). -/
def csvRow (render : F → List Char) (i : ℕ) (r : SimulationResult) :
    List Char :=
  natChars (i + 1) ++ ',' :: render r.p_value ++ ',' :: render r.effect_size ++
  ',' :: render r.confidence_interval.1 ++
  ',' :: render r.confidence_interval.2 ++ ',' :: render r.s_value ++
  ',' :: (if r.significant then trueChars else falseChars)

/-- The newline-terminated data rows, in trial order. -/
def csvRows (render : F → List Char) : ℕ → List SimulationResult → List Char
  | _, [] => []
  | i, r :: rs => csvRow render i r ++ '\n' :: csvRows render (i + 1) rs

/-- `export_to_csv`. -/
def export_to_csv (render : F → List Char) (results : AggregatedResults) :
    Except String (List Char) :=
  .ok (headerStr.toList ++ '\n' :: csvRows render 0 results.individual_results)

/-- Split a character sequence at every newline (`k` newlines yield `k + 1`
chunks; newline-terminated text ends with an empty chunk). -/
def splitOnNl : List Char → List (List Char)
  | [] => [[]]
  | c :: rest =>
    if c = '\n' then [] :: splitOnNl rest
    else
      match splitOnNl rest with
      | [] => [[c]]
      | l :: ls => (c :: l) :: ls

/-- The lines of a text, dropping the empty chunk a trailing newline
leaves (the line count the spec uses). -/
def textLines (s : List Char) : List (List Char) :=
  let parts := splitOnNl s
  if parts.getLast? = some [] then parts.dropLast else parts

/-- The text before the first comma: the first CSV field of a row. -/
def firstField (s : List Char) : List Char := s.takeWhile (· ≠ ',')

/-! ## Spec-side formulas for the t-test -/

/-- Arithmetic mean of a real sample (the spec's `m`). -/
noncomputable def sampleMean (l : List ℝ) : ℝ := l.sum / l.length

/-- Bessel-corrected sample variance (the spec's `v`, divide by `n − 1`). -/
noncomputable def sampleVar (l : List ℝ) : ℝ :=
  (l.map fun x => (x - sampleMean l) ^ 2).sum / (l.length - 1)

/-- The spec's pooled standard error `sqrt(v1/n1 + v2/n2)`. -/
noncomputable def pooledSE (g1 g2 : List ℝ) : ℝ :=
  Real.sqrt (sampleVar g1 / g1.length + sampleVar g2 / g2.length)

/-- The spec's error taxonomy class `InvalidParameter` (§7). -/
def invalidParamMsgs : List String :=
  [errStdMsg, errSizeMsg, errNumSimsMsg, errAlphaMsg, errConfMsg]

/-- A result that failed with an `InvalidParameter` message. -/
def IsInvalidParamErr {α : Type} (r : Except String α) : Prop :=
  ∃ m, r = .error m ∧ m ∈ invalidParamMsgs

/-! ## Theorems -/

/-- C5: `calculate_s_value` is total on the reals: `+∞` for `p ≤ 0`,
exactly `0` for `p ≥ 1`, `−log2 p` strictly inside `(0,1)`; in particular
it maps `0.5` to `1` and `0.25` to `2` exactly. -/
theorem c5_s_value (p : ℝ) :
    (p ≤ 0 → calculate_s_value (F.fin p) = F.pinf) ∧
    (1 ≤ p → calculate_s_value (F.fin p) = F.fin 0) ∧
    (0 < p → p < 1 → calculate_s_value (F.fin p) = F.fin (-Real.logb 2 p)) ∧
    calculate_s_value (F.fin (1 / 2)) = F.fin 1 ∧
    calculate_s_value (F.fin (1 / 4)) = F.fin 2 := by
  have log2_ne : Real.log 2 ≠ 0 :=
    ne_of_gt (Real.log_pos (by norm_num))
  have gen : ∀ q : ℝ, 0 < q → q < 1 →
      calculate_s_value (F.fin q) = F.fin (-Real.logb 2 q) := by
    intro q hq0 hq1
    have h1 : ¬ F.le (F.fin q) (F.fin 0) := by simpa using not_le.mpr hq0
    have h2 : ¬ F.le (F.fin 1) (F.fin q) := by simpa using not_le.mpr hq1
    simp [calculate_s_value, h1, h2, F.log2_fin_of_pos hq0, F.neg_fin]
  refine ⟨?_, ?_, gen p, ?_, ?_⟩
  · intro hp
    simp [calculate_s_value, F.le, hp]
  · intro hp
    have hp0 : (0 : ℝ) < p := lt_of_lt_of_le one_pos hp
    simp [calculate_s_value, F.le, hp, hp0]
  · rw [gen (1 / 2) (by norm_num) (by norm_num)]
    have : Real.logb 2 (1 / 2 : ℝ) = -1 := by
      rw [show (1 / 2 : ℝ) = (2 : ℝ)⁻¹ by norm_num, Real.logb, Real.log_inv]
      field_simp
    rw [this]; norm_num
  · rw [gen (1 / 4) (by norm_num) (by norm_num)]
    have : Real.logb 2 (1 / 4 : ℝ) = -2 := by
      rw [show (1 / 4 : ℝ) = ((2 : ℝ) ^ (2 : ℕ))⁻¹ by norm_num, Real.logb,
        Real.log_inv, Real.log_pow]
      field_simp
    rw [this]; norm_num

/-- Witness for C5 at `p = 1/2`. -/
theorem c5_s_value_witness :
    (0 : ℝ) < 1 / 2 ∧ (1 / 2 : ℝ) < 1 ∧
      calculate_s_value (F.fin (1 / 2)) = F.fin (-Real.logb 2 (1 / 2)) :=
  ⟨by norm_num, by norm_num,
    (c5_s_value (1 / 2)).2.2.1 (by norm_num) (by norm_num)⟩

/-- C10: on two groups of length 1 the Bessel variances are `0/0 = NaN`,
the NaN pooled standard error does not trip the `== 0` degeneracy check,
and with `df = 0` the Student-t construction fails, so `t_test` returns
the distribution-construction error (never a numeric triple). -/
theorem c10_t_test_singletons (tCdf : ℝ → F → F) (a b : ℝ) :
    seF [F.fin a] [F.fin b] = F.nan ∧
    ¬ F.feq (seF [F.fin a] [F.fin b]) (F.fin 0) ∧
    t_test tCdf [F.fin a] [F.fin b] = .error errTDistMsg := by
  have hse : seF [F.fin a] [F.fin b] = F.nan := by
    simp [seF, varF, meanF, F.lsum, F.sq, F.div, F.sub, F.add, F.neg, F.mul,
      F.sqrt]
  refine ⟨hse, ?_, ?_⟩
  · rw [hse]; simp [F.feq]
  · norm_num [t_test, seF, varF, meanF, F.lsum, F.sq, F.div, F.sub, F.add,
      F.neg, F.mul, F.sqrt, F.feq, studentsTNew, errTDistMsg]

/-- C9 (auxiliary): the trial loop reads every field of the parameter
record except `hypothesized_effect_size`. -/
theorem runTrials_hes_irrelevant (tCdf : ℝ → F → F) (tInv : ℝ → ℝ → ℝ)
    (ω : ℕ → ℝ) (a b c d : ℝ) (e f : ℕ) (h1 h2 g te : ℝ) :
    ∀ k pos, runTrials tCdf tInv ω ⟨a, b, c, d, e, f, h1, g⟩ te k pos =
      runTrials tCdf tInv ω ⟨a, b, c, d, e, f, h2, g⟩ te k pos := by
  intro k
  induction k with
  | zero => intro pos; rfl
  | succ n ih =>
      intro pos
      simp only [runTrials, ih]

/-- C9: `run_simulation` does not depend on `hypothesized_effect_size`:
with the same random tape and the same remaining fields, two runs return
identical results (identical aggregates on success, identical errors on
failure). -/
theorem c9_hes_unused (tCdf : ℝ → F → F) (tInv : ℝ → ℝ → ℝ) (ω : ℕ → ℝ)
    (p q : SimulationParams)
    (h1 : p.group1_mean = q.group1_mean) (h2 : p.group1_std = q.group1_std)
    (h3 : p.group2_mean = q.group2_mean) (h4 : p.group2_std = q.group2_std)
    (h5 : p.sample_size_per_group = q.sample_size_per_group)
    (h6 : p.num_simulations = q.num_simulations)
    (h7 : p.alpha_level = q.alpha_level) :
    run_simulation tCdf tInv ω p = run_simulation tCdf tInv ω q := by
  obtain ⟨a, b, c, d, e, f, hes1, g⟩ := p
  obtain ⟨a', b', c', d', e', f', hes2, g'⟩ := q
  simp only at h1 h2 h3 h4 h5 h6 h7
  subst h1 h2 h3 h4 h5 h6 h7
  simp only [run_simulation, runTrials_hes_irrelevant tCdf tInv ω a b c d e f
    hes1 hes2 g]

/-- Witness for C9: two concrete parameter records differing only in
`hypothesized_effect_size` produce the same run. -/
theorem c9_hes_unused_witness :
    run_simulation (fun _ _ => F.fin 0) (fun _ _ => (0 : ℝ)) (fun _ => (0 : ℝ))
        ⟨0, 1, 0, 1, 2, 1, 0, 1 / 2⟩ =
      run_simulation (fun _ _ => F.fin 0) (fun _ _ => (0 : ℝ)) (fun _ => (0 : ℝ))
        ⟨0, 1, 0, 1, 2, 1, 5, 1 / 2⟩ :=
  c9_hes_unused _ _ _ _ _ rfl rfl rfl rfl rfl rfl rfl

/-! ### Evaluation lemmas used for the interval estimator -/

theorem F.add_fin_pinf (x : ℝ) : F.add (F.fin x) F.pinf = F.pinf := rfl

theorem F.add_pinf_fin (x : ℝ) : F.add F.pinf (F.fin x) = F.pinf := rfl

theorem F.sub_fin_pinf (x : ℝ) : F.sub (F.fin x) F.pinf = F.ninf := rfl

theorem F.sqrt_pinf : F.sqrt F.pinf = F.pinf := rfl

theorem F.mul_fin_pinf {x : ℝ} (hx : 0 < x) :
    F.mul (F.fin x) F.pinf = F.pinf := by
  simp [F.mul, hx, ne_of_gt hx]

theorem F.div_pos_zero {x y : ℝ} (hx : 0 < x) (hy : y = 0) :
    F.div (F.fin x) (F.fin y) = F.pinf := by
  simp [F.div, hy, hx, ne_of_gt hx]

/-- `calculate_confidence_interval` with a valid confidence level and a
positive df reduces past its two fallible steps. -/
theorem ci_reduce (tInv : ℝ → ℝ → ℝ) (es : F) (n1 n2 : ℕ) (cl : ℝ)
    (hcl0 : 0 < cl) (hcl1 : cl < 1) (hdf : 0 < ((n1 + n2 - 2 : ℕ) : ℝ)) :
    calculate_confidence_interval tInv es n1 n2 cl =
      .ok
        (F.sub es (F.mul (F.fin (tInv ((n1 + n2 - 2 : ℕ) : ℝ) (1 - (1 - cl) / 2)))
          (F.sqrt (F.add
            (F.div (F.add (F.fin n1) (F.fin n2)) (F.mul (F.fin n1) (F.fin n2)))
            (F.div (F.sq es) (F.mul (F.fin 2) (F.add (F.fin n1) (F.fin n2))))))),
         F.add es (F.mul (F.fin (tInv ((n1 + n2 - 2 : ℕ) : ℝ) (1 - (1 - cl) / 2)))
          (F.sqrt (F.add
            (F.div (F.add (F.fin n1) (F.fin n2)) (F.mul (F.fin n1) (F.fin n2)))
            (F.div (F.sq es) (F.mul (F.fin 2) (F.add (F.fin n1) (F.fin n2)))))))) := by
  have h1 : ¬ (cl ≤ 0 ∨ 1 ≤ cl) := by
    push_neg
    exact ⟨hcl0, hcl1⟩
  simp only [calculate_confidence_interval, h1, if_false, studentsTNew,
    hdf, if_true, if_pos hdf]

/-- The f64 standard-error expression of the interval estimator equals the
spec's real formula when both group sizes are at least 1. -/
theorem ci_se_fin (d : ℝ) (n1 n2 : ℕ) (h1 : 1 ≤ n1) (h2 : 1 ≤ n2) :
    F.sqrt (F.add
      (F.div (F.add (F.fin n1) (F.fin n2)) (F.mul (F.fin n1) (F.fin n2)))
      (F.div (F.sq (F.fin d)) (F.mul (F.fin 2) (F.add (F.fin n1) (F.fin n2))))) =
    F.fin (Real.sqrt (((n1 : ℝ) + n2) / ((n1 : ℝ) * n2) +
      d ^ 2 / (2 * ((n1 : ℝ) + n2)))) := by
  have hn1 : (0 : ℝ) < n1 := by exact_mod_cast h1
  have hn2 : (0 : ℝ) < n2 := by exact_mod_cast h2
  have hprod : ((n1 : ℝ) * n2) ≠ 0 := by positivity
  have hsum : (2 * ((n1 : ℝ) + n2)) ≠ 0 := by positivity
  have harg : 0 ≤ ((n1 : ℝ) + n2) / ((n1 : ℝ) * n2) +
      d ^ 2 / (2 * ((n1 : ℝ) + n2)) := by positivity
  simp only [F.sq, F.mul_fin, F.add_fin]
  rw [F.div_fin_of_ne _ hprod, F.div_fin_of_ne _ hsum, F.add_fin]
  rw [show d * d = d ^ 2 by ring, F.sqrt_fin_of_nonneg harg]

/-- C4: with `n1 + n2 > 2`, a confidence level strictly inside `(0,1)` and
the Student-t critical value positive at the upper quantile (as the true
inverse CDF is), `calculate_confidence_interval` returns
`(d − t_crit·se, d + t_crit·se)` with `se = sqrt((n1+n2)/(n1·n2) + d²/(2(n1+n2)))`
and `t_crit = tInv(df, 1 − α/2)`, `α = 1 − confidence_level`; the returned
pair always satisfies `lower ≤ upper`. -/
theorem c4_confidence_interval (tInv : ℝ → ℝ → ℝ) (d cl : ℝ) (n1 n2 : ℕ)
    (hn : 2 < n1 + n2) (hcl0 : 0 < cl) (hcl1 : cl < 1)
    (ht : 0 < tInv ((n1 + n2 - 2 : ℕ) : ℝ) (1 - (1 - cl) / 2)) :
    (∀ lo hi,
      calculate_confidence_interval tInv (F.fin d) n1 n2 cl = .ok (lo, hi) →
        F.le lo hi) ∧
    (1 ≤ n1 → 1 ≤ n2 →
      calculate_confidence_interval tInv (F.fin d) n1 n2 cl =
        .ok (F.fin (d - tInv ((n1 + n2 - 2 : ℕ) : ℝ) (1 - (1 - cl) / 2) *
               Real.sqrt (((n1 : ℝ) + n2) / ((n1 : ℝ) * n2) +
                 d ^ 2 / (2 * ((n1 : ℝ) + n2)))),
             F.fin (d + tInv ((n1 + n2 - 2 : ℕ) : ℝ) (1 - (1 - cl) / 2) *
               Real.sqrt (((n1 : ℝ) + n2) / ((n1 : ℝ) * n2) +
                 d ^ 2 / (2 * ((n1 : ℝ) + n2)))))) := by
  have hdf : 0 < ((n1 + n2 - 2 : ℕ) : ℝ) := by
    have : 1 ≤ n1 + n2 - 2 := by omega
    exact_mod_cast Nat.lt_of_lt_of_le Nat.zero_lt_one this
  have hred := ci_reduce tInv (F.fin d) n1 n2 cl hcl0 hcl1 hdf
  set t := tInv ((n1 + n2 - 2 : ℕ) : ℝ) (1 - (1 - cl) / 2) with htdef
  constructor
  · intro lo hi hok
    rcases Nat.eq_zero_or_pos n1 with h10 | h11
    · -- n1 = 0, so n2 ≥ 3: the se expression is +∞ and the interval (−∞, +∞)
      subst h10
      have hn2 : (0 : ℝ) < n2 := by exact_mod_cast (by omega : 0 < n2)
      have hA : F.add (F.fin (0 : ℕ)) (F.fin n2) = F.fin n2 := by
        simp [F.add_fin]
      have hB : F.mul (F.fin (0 : ℕ)) (F.fin n2) = F.fin 0 := by
        simp [F.mul_fin]
      have hdiv : F.div (F.fin (n2 : ℝ)) (F.fin 0) = F.pinf :=
        F.div_pos_zero hn2 rfl
      rw [hred] at hok
      rw [hA, hB, hdiv] at hok
      have h2n : ((2 : ℝ) * n2) ≠ 0 := by positivity
      rw [F.sq, F.mul_fin, F.mul_fin, F.div_fin_of_ne _ h2n] at hok
      have : F.add F.pinf (F.fin (d * d / (2 * (n2 : ℝ)))) = F.pinf := rfl
      rw [this, F.sqrt_pinf, F.mul_fin_pinf ht, F.sub_fin_pinf,
        F.add_fin_pinf] at hok
      rw [Except.ok.injEq, Prod.mk.injEq] at hok
      obtain ⟨rfl, rfl⟩ := hok
      trivial
    · rcases Nat.eq_zero_or_pos n2 with h20 | h21
      · -- n2 = 0, so n1 ≥ 3: symmetric to the previous case
        subst h20
        have hn1 : (0 : ℝ) < n1 := by exact_mod_cast (by omega : 0 < n1)
        have hA : F.add (F.fin n1) (F.fin (0 : ℕ)) = F.fin n1 := by
          simp [F.add_fin]
        have hB : F.mul (F.fin n1) (F.fin (0 : ℕ)) = F.fin 0 := by
          simp [F.mul_fin]
        have hdiv : F.div (F.fin (n1 : ℝ)) (F.fin 0) = F.pinf :=
          F.div_pos_zero hn1 rfl
        rw [hred] at hok
        rw [hA, hB, hdiv] at hok
        have h2n : ((2 : ℝ) * n1) ≠ 0 := by positivity
        rw [F.sq, F.mul_fin, F.mul_fin, F.div_fin_of_ne _ h2n] at hok
        have : F.add F.pinf (F.fin (d * d / (2 * (n1 : ℝ)))) = F.pinf := rfl
        rw [this, F.sqrt_pinf, F.mul_fin_pinf ht, F.sub_fin_pinf,
          F.add_fin_pinf] at hok
        rw [Except.ok.injEq, Prod.mk.injEq] at hok
        obtain ⟨rfl, rfl⟩ := hok
        trivial
      · -- both sizes ≥ 1: a finite, nonnegative margin
        rw [hred, ci_se_fin d n1 n2 h11 h21, F.mul_fin, F.sub_fin,
          F.add_fin] at hok
        rw [Except.ok.injEq, Prod.mk.injEq] at hok
        obtain ⟨rfl, rfl⟩ := hok
        have hm : 0 ≤ t * Real.sqrt (((n1 : ℝ) + n2) / ((n1 : ℝ) * n2) +
            d ^ 2 / (2 * ((n1 : ℝ) + n2))) :=
          mul_nonneg ht.le (Real.sqrt_nonneg _)
        rw [F.le_fin]
        linarith
  · intro h11 h21
    rw [hred, ci_se_fin d n1 n2 h11 h21, F.mul_fin, F.sub_fin, F.add_fin]

/-- Witness for C4 at `n1 = n2 = 2`, `d = 0`, `confidence_level = 1/2`,
`tInv ≡ 1`. -/
theorem c4_confidence_interval_witness :
    2 < 2 + 2 ∧ (0 : ℝ) < 1 / 2 ∧ (1 / 2 : ℝ) < 1 ∧
      (0 : ℝ) < (fun _ _ => (1 : ℝ)) ((2 + 2 - 2 : ℕ) : ℝ) (1 - (1 - 1 / 2) / 2) ∧
      (1 ≤ 2 → 1 ≤ 2 →
        calculate_confidence_interval (fun _ _ => (1 : ℝ)) (F.fin 0) 2 2 (1 / 2) =
          .ok (F.fin (0 - (fun _ _ => (1 : ℝ)) ((2 + 2 - 2 : ℕ) : ℝ) (1 - (1 - 1 / 2) / 2) *
                 Real.sqrt (((2 : ℝ) + 2) / ((2 : ℝ) * 2) +
                   (0 : ℝ) ^ 2 / (2 * ((2 : ℝ) + 2)))),
               F.fin (0 + (fun _ _ => (1 : ℝ)) ((2 + 2 - 2 : ℕ) : ℝ) (1 - (1 - 1 / 2) / 2) *
                 Real.sqrt (((2 : ℝ) + 2) / ((2 : ℝ) * 2) +
                   (0 : ℝ) ^ 2 / (2 * ((2 : ℝ) + 2)))))) :=
  ⟨by norm_num, by norm_num, by norm_num, by norm_num,
    (c4_confidence_interval (fun _ _ => (1 : ℝ)) 0 (1 / 2) 2 2 (by norm_num)
      (by norm_num) (by norm_num) (by norm_num)).2⟩

/-! ### Evaluation lemmas for the hypothesis tester -/

theorem sampleVar_nonneg (g : List ℝ) (h : 2 ≤ g.length) : 0 ≤ sampleVar g := by
  unfold sampleVar
  apply div_nonneg
  · apply List.sum_nonneg
    intro x hx
    obtain ⟨r, _, rfl⟩ := List.mem_map.mp hx
    positivity
  · have h2 : (2 : ℝ) ≤ (g.length : ℝ) := by exact_mod_cast h
    linarith

theorem meanF_fin (g : List ℝ) (h : g ≠ []) :
    meanF (g.map F.fin) = F.fin (sampleMean g) := by
  have hn : ((g.length : ℝ)) ≠ 0 :=
    Nat.cast_ne_zero.mpr (List.length_pos.mpr h).ne.symm
  simp only [meanF, List.length_map, F.lsum_map_fin]
  rw [F.div_fin_of_ne _ hn, sampleMean]

theorem varF_fin (g : List ℝ) (h : 2 ≤ g.length) :
    varF (g.map F.fin) = F.fin (sampleVar g) := by
  have hne : g ≠ [] := List.length_pos.mp (by omega)
  have hmap : (g.map F.fin).map (fun x => F.sq (F.sub x (meanF (g.map F.fin)))) =
      (g.map fun r => (r - sampleMean g) ^ 2).map F.fin := by
    rw [meanF_fin g hne]
    simp only [List.map_map]
    apply List.map_congr_left
    intro r _
    simp [Function.comp, F.sq, pow_two]
  have hd : ((g.length : ℝ) - 1) ≠ 0 := by
    have h2 : (2 : ℝ) ≤ (g.length : ℝ) := by exact_mod_cast h
    intro h0
    linarith
  simp only [varF, hmap, F.lsum_map_fin, List.length_map, F.sub_fin]
  rw [F.div_fin_of_ne _ hd, sampleVar]

theorem seF_fin (g1 g2 : List ℝ) (h1 : 2 ≤ g1.length) (h2 : 2 ≤ g2.length) :
    seF (g1.map F.fin) (g2.map F.fin) = F.fin (pooledSE g1 g2) := by
  have hn1 : ((g1.length : ℝ)) ≠ 0 := by
    have : (2 : ℝ) ≤ (g1.length : ℝ) := by exact_mod_cast h1
    intro h0; linarith
  have hn2 : ((g2.length : ℝ)) ≠ 0 := by
    have : (2 : ℝ) ≤ (g2.length : ℝ) := by exact_mod_cast h2
    intro h0; linarith
  have harg : 0 ≤ sampleVar g1 / (g1.length : ℝ) + sampleVar g2 / (g2.length : ℝ) := by
    have := sampleVar_nonneg g1 h1
    have := sampleVar_nonneg g2 h2
    positivity
  simp only [seF, varF_fin g1 h1, varF_fin g2 h2, List.length_map]
  rw [F.div_fin_of_ne _ hn1, F.div_fin_of_ne _ hn2, F.add_fin,
    F.sqrt_fin_of_nonneg harg, pooledSE]

theorem pooledStdF_fin (g1 g2 : List ℝ) (h1 : 2 ≤ g1.length) (h2 : 2 ≤ g2.length) :
    pooledStdF (g1.map F.fin) (g2.map F.fin) =
      F.fin (Real.sqrt ((sampleVar g1 + sampleVar g2) / 2)) := by
  have harg : 0 ≤ (sampleVar g1 + sampleVar g2) / 2 := by
    have := sampleVar_nonneg g1 h1
    have := sampleVar_nonneg g2 h2
    positivity
  simp only [pooledStdF, varF_fin g1 h1, varF_fin g2 h2, F.add_fin]
  rw [F.div_fin_of_ne _ (by norm_num : (2 : ℝ) ≠ 0),
    F.sqrt_fin_of_nonneg harg]

/-- A nonzero pooled standard error forces a nonzero Cohen's-d
denominator. -/
theorem pooledStd_ne_zero (g1 g2 : List ℝ) (h1 : 2 ≤ g1.length)
    (h2 : 2 ≤ g2.length) (hse : pooledSE g1 g2 ≠ 0) :
    Real.sqrt ((sampleVar g1 + sampleVar g2) / 2) ≠ 0 := by
  have hv1 := sampleVar_nonneg g1 h1
  have hv2 := sampleVar_nonneg g2 h2
  intro h0
  apply hse
  have hle : (sampleVar g1 + sampleVar g2) / 2 ≤ 0 := Real.sqrt_eq_zero'.mp h0
  have hv10 : sampleVar g1 = 0 := by linarith
  have hv20 : sampleVar g2 = 0 := by linarith
  unfold pooledSE
  rw [hv10, hv20]
  simp

/-- `t_test` past its three fallible checks. -/
theorem t_test_reduce (tCdf : ℝ → F → F) (g1 g2 : List F)
    (h1 : g1 ≠ []) (h2 : g2 ≠ [])
    (hfe : ¬ F.feq (seF g1 g2) (F.fin 0))
    (hdf : (0 : ℝ) < (g1.length : ℝ) + (g2.length : ℝ) - 2) :
    t_test tCdf g1 g2 =
      .ok (F.div (F.sub (meanF g1) (meanF g2)) (seF g1 g2),
           F.mul (F.fin 2) (F.sub (F.fin 1)
             (tCdf ((g1.length : ℝ) + (g2.length : ℝ) - 2)
               (F.fabs (F.div (F.sub (meanF g1) (meanF g2)) (seF g1 g2))))),
           F.div (F.sub (meanF g1) (meanF g2)) (pooledStdF g1 g2)) := by
  have hb : (g1.isEmpty || g2.isEmpty) = false := by
    simp [List.isEmpty_iff, h1, h2]
  simp only [t_test, hb, Bool.false_eq_true, if_false, hfe, if_neg,
    studentsTNew, if_pos hdf]

/-- C2: `t_test` fails exactly on an empty group, an exactly-zero computed
pooled standard error, or a failed Student-t construction (`df ≤ 0`, i.e.
`n1 + n2 ≤ 2`), each with its own error; on samples of size ≥ 2 the
computed pooled SE is the spec formula `sqrt(v1/n1 + v2/n2)` with Bessel
variances, and on success the triple is `t = (m1−m2)/se`,
`p = 2(1 − CDF_t(|t|, n1+n2−2))`, and Cohen's d with the unpooled-average
denominator `sqrt((v1+v2)/2)`. -/
theorem c2_t_test (tCdf : ℝ → F → F) :
    (∀ g1 g2 : List F,
      ((g1 = [] ∨ g2 = []) → t_test tCdf g1 g2 = .error errEmptyMsg) ∧
      (g1 ≠ [] → g2 ≠ [] → F.feq (seF g1 g2) (F.fin 0) →
        t_test tCdf g1 g2 = .error errSeZeroMsg) ∧
      (g1 ≠ [] → g2 ≠ [] → ¬ F.feq (seF g1 g2) (F.fin 0) →
        g1.length + g2.length ≤ 2 → t_test tCdf g1 g2 = .error errTDistMsg) ∧
      ((∃ e, t_test tCdf g1 g2 = .error e) ↔
        g1 = [] ∨ g2 = [] ∨ F.feq (seF g1 g2) (F.fin 0) ∨
          g1.length + g2.length ≤ 2)) ∧
    (∀ g1 g2 : List ℝ, 2 ≤ g1.length → 2 ≤ g2.length →
      seF (g1.map F.fin) (g2.map F.fin) = F.fin (pooledSE g1 g2) ∧
      (pooledSE g1 g2 ≠ 0 → ∀ c : ℝ,
        tCdf ((g1.length : ℝ) + (g2.length : ℝ) - 2)
            (F.fin |(sampleMean g1 - sampleMean g2) / pooledSE g1 g2|) =
          F.fin c →
        t_test tCdf (g1.map F.fin) (g2.map F.fin) =
          .ok (F.fin ((sampleMean g1 - sampleMean g2) / pooledSE g1 g2),
               F.fin (2 * (1 - c)),
               F.fin ((sampleMean g1 - sampleMean g2) /
                 Real.sqrt ((sampleVar g1 + sampleVar g2) / 2))))) := by
  have empty_case : ∀ g1 g2 : List F, (g1 = [] ∨ g2 = []) →
      t_test tCdf g1 g2 = .error errEmptyMsg := by
    rintro g1 g2 (rfl | rfl) <;> simp [t_test]
  have se_case : ∀ g1 g2 : List F, g1 ≠ [] → g2 ≠ [] →
      F.feq (seF g1 g2) (F.fin 0) → t_test tCdf g1 g2 = .error errSeZeroMsg := by
    intro g1 g2 h1 h2 hfe
    have hb : (g1.isEmpty || g2.isEmpty) = false := by
      simp [List.isEmpty_iff, h1, h2]
    simp [t_test, hb, hfe]
  have df_case : ∀ g1 g2 : List F, g1 ≠ [] → g2 ≠ [] →
      ¬ F.feq (seF g1 g2) (F.fin 0) → g1.length + g2.length ≤ 2 →
      t_test tCdf g1 g2 = .error errTDistMsg := by
    intro g1 g2 h1 h2 hfe hlen
    have hb : (g1.isEmpty || g2.isEmpty) = false := by
      simp [List.isEmpty_iff, h1, h2]
    have hdf : ¬ (0 : ℝ) < (g1.length : ℝ) + (g2.length : ℝ) - 2 := by
      have hc : (g1.length : ℝ) + (g2.length : ℝ) ≤ 2 := by exact_mod_cast hlen
      linarith
    simp [t_test, hb, hfe, studentsTNew, hdf, errTDistMsg]
  constructor
  · intro g1 g2
    refine ⟨empty_case g1 g2, se_case g1 g2, df_case g1 g2, ?_, ?_⟩
    · rintro ⟨e, he⟩
      by_contra hc
      push_neg at hc
      obtain ⟨hn1, hn2, hfe, hlen⟩ := hc
      have hdf : (0 : ℝ) < (g1.length : ℝ) + (g2.length : ℝ) - 2 := by
        have hc2 : (2 : ℝ) < (g1.length : ℝ) + (g2.length : ℝ) := by
          exact_mod_cast Nat.lt_of_not_le (by omega : ¬ g1.length + g2.length ≤ 2)
        linarith
      rw [t_test_reduce tCdf g1 g2 hn1 hn2 hfe hdf] at he
      exact Except.noConfusion he
    · intro hd
      by_cases h1 : g1 = []
      · exact ⟨_, empty_case g1 g2 (Or.inl h1)⟩
      by_cases h2 : g2 = []
      · exact ⟨_, empty_case g1 g2 (Or.inr h2)⟩
      by_cases hfe : F.feq (seF g1 g2) (F.fin 0)
      · exact ⟨_, se_case g1 g2 h1 h2 hfe⟩
      · have hlen : g1.length + g2.length ≤ 2 := by tauto
        exact ⟨_, df_case g1 g2 h1 h2 hfe hlen⟩
  · intro g1 g2 h1 h2
    have hse := seF_fin g1 g2 h1 h2
    refine ⟨hse, ?_⟩
    intro hne c hc
    have hne1 : g1 ≠ [] := List.length_pos.mp (by omega)
    have hne2 : g2 ≠ [] := List.length_pos.mp (by omega)
    have hm1 : (g1.map F.fin) ≠ [] := by simpa using hne1
    have hm2 : (g2.map F.fin) ≠ [] := by simpa using hne2
    have hfe : ¬ F.feq (seF (g1.map F.fin) (g2.map F.fin)) (F.fin 0) := by
      rw [hse]
      simpa [F.feq] using hne
    have hdf : (0 : ℝ) < ((g1.map F.fin).length : ℝ) +
        ((g2.map F.fin).length : ℝ) - 2 := by
      simp only [List.length_map]
      have hc1 : (2 : ℝ) ≤ (g1.length : ℝ) := by exact_mod_cast h1
      have hc2 : (2 : ℝ) ≤ (g2.length : ℝ) := by exact_mod_cast h2
      linarith
    rw [t_test_reduce tCdf _ _ hm1 hm2 hfe hdf]
    rw [meanF_fin g1 hne1, meanF_fin g2 hne2, hse, pooledStdF_fin g1 g2 h1 h2,
      F.sub_fin, F.div_fin_of_ne _ hne, F.fabs_fin,
      F.div_fin_of_ne _ (pooledStd_ne_zero g1 g2 h1 h2 hne)]
    simp only [List.length_map]
    rw [hc, F.sub_fin, F.mul_fin]

/-- Witness for C2 on the samples `[0,2]` and `[1,3]` with a constant CDF
model `1/2`. -/
theorem c2_t_test_witness :
    2 ≤ ([0, 2] : List ℝ).length ∧ 2 ≤ ([1, 3] : List ℝ).length ∧
      pooledSE [0, 2] [1, 3] ≠ 0 ∧
      t_test (fun _ _ => F.fin (1 / 2)) ([0, 2].map F.fin) ([1, 3].map F.fin) =
        .ok (F.fin ((sampleMean [0, 2] - sampleMean [1, 3]) / pooledSE [0, 2] [1, 3]),
             F.fin (2 * (1 - 1 / 2)),
             F.fin ((sampleMean [0, 2] - sampleMean [1, 3]) /
               Real.sqrt ((sampleVar [0, 2] + sampleVar [1, 3]) / 2))) := by
  have hse : pooledSE ([0, 2] : List ℝ) [1, 3] ≠ 0 := by
    rw [pooledSE]
    rw [Real.sqrt_ne_zero']
    norm_num [sampleVar, sampleMean]
  exact ⟨by norm_num, by norm_num, hse,
    ((c2_t_test (fun _ _ => F.fin (1 / 2))).2 [0, 2] [1, 3] (by norm_num)
      (by norm_num)).2 hse (1 / 2) rfl⟩

/-! ### Error-shape lemmas for the validator claim -/

theorem generate_samples_ok (ω : ℕ → ℝ) (pos : ℕ) (m1 s1 m2 s2 : ℝ) (n : ℕ)
    (h1 : 0 < s1) (h2 : 0 < s2) (hn : n ≠ 0) :
    generate_samples ω pos m1 s1 m2 s2 n =
      .ok ((List.range n).map fun i => F.fin (m1 + s1 * ω (pos + i)),
           (List.range n).map fun i => F.fin (m2 + s2 * ω (pos + n + i))) := by
  have hs : ¬ (s1 ≤ 0 ∨ s2 ≤ 0) := by
    push_neg
    exact ⟨h1, h2⟩
  simp [generate_samples, hs, hn]

theorem t_test_error_shape (tCdf : ℝ → F → F) (g1 g2 : List F) (e : String)
    (he : t_test tCdf g1 g2 = .error e) :
    e = errEmptyMsg ∨ e = errSeZeroMsg ∨ e = errTDistMsg := by
  unfold t_test at he
  split at he
  · exact Or.inl (Except.error.inj he).symm
  · split at he
    · exact Or.inr (Or.inl (Except.error.inj he).symm)
    · split at he
      next e' heq =>
        unfold studentsTNew at heq
        split at heq
        · exact Except.noConfusion heq
        · cases (Except.error.inj heq)
          exact Or.inr (Or.inr (Except.error.inj he).symm)
      next => exact Except.noConfusion he

theorem ci_095_error (tInv : ℝ → ℝ → ℝ) (es : F) (n1 n2 : ℕ) (e : String)
    (he : calculate_confidence_interval tInv es n1 n2 0.95 = .error e) :
    e = errTDistMsg := by
  have hg : ¬ ((0.95 : ℝ) ≤ 0 ∨ 1 ≤ (0.95 : ℝ)) := by norm_num
  unfold calculate_confidence_interval at he
  rw [if_neg hg] at he
  split at he
  next e' heq =>
    unfold studentsTNew at heq
    split at heq
    · exact Except.noConfusion heq
    · cases (Except.error.inj heq)
      exact (Except.error.inj he).symm
  next => exact Except.noConfusion he

/-- With validated parameters, the only errors a trial can surface are the
empty-input, zero-pooled-SE and t-distribution messages. -/
theorem runTrials_error_shape (tCdf : ℝ → F → F) (tInv : ℝ → ℝ → ℝ)
    (ω : ℕ → ℝ) (p : SimulationParams) (te : ℝ)
    (h1 : 0 < p.group1_std) (h2 : 0 < p.group2_std)
    (hn : p.sample_size_per_group ≠ 0) :
    ∀ k pos e, runTrials tCdf tInv ω p te k pos = .error e →
      e = errEmptyMsg ∨ e = errSeZeroMsg ∨ e = errTDistMsg := by
  intro k
  induction k with
  | zero =>
      intro pos e he
      exact Except.noConfusion he
  | succ n ih =>
      intro pos e he
      have hgen := generate_samples_ok ω pos p.group1_mean p.group1_std
        p.group2_mean p.group2_std p.sample_size_per_group h1 h2 hn
      simp only [runTrials, hgen] at he
      split at he
      next e1 heq =>
        cases Except.error.inj he
        exact t_test_error_shape tCdf _ _ _ heq
      next heq =>
        split at he
        next e1 heq2 =>
          cases Except.error.inj he
          exact Or.inr (Or.inr (ci_095_error tInv _ _ _ _ heq2))
        next heq2 =>
          split at he
          next e1 heq3 =>
            cases Except.error.inj he
            exact ih _ _ heq3
          next heq3 => exact Except.noConfusion he

theorem shape_msgs_not_invalid :
    errEmptyMsg ∉ invalidParamMsgs ∧ errSeZeroMsg ∉ invalidParamMsgs ∧
      errTDistMsg ∉ invalidParamMsgs := by
  refine ⟨?_, ?_, ?_⟩ <;> decide

/-- C7: `run_simulation` fails with an `InvalidParameter`-class message
(independently of the random tape, i.e. before any sampling) exactly when
a standard deviation is non-positive, the sample size or the simulation
count is zero, or the alpha level lies outside `(0,1)`; and
`calculate_confidence_interval` fails with the confidence-level message
whenever the confidence level lies outside `(0,1)`. -/
theorem c7_invalid_parameter (tCdf : ℝ → F → F) (tInv : ℝ → ℝ → ℝ)
    (ω : ℕ → ℝ) (p : SimulationParams) :
    (IsInvalidParamErr (run_simulation tCdf tInv ω p) ↔
      p.group1_std ≤ 0 ∨ p.group2_std ≤ 0 ∨ p.sample_size_per_group = 0 ∨
        p.num_simulations = 0 ∨ p.alpha_level ≤ 0 ∨ 1 ≤ p.alpha_level) ∧
    (∀ es n1 n2 cl, cl ≤ 0 ∨ 1 ≤ cl →
      calculate_confidence_interval tInv es n1 n2 cl = .error errConfMsg) := by
  constructor
  · constructor
    · rintro ⟨m, hm, hmem⟩
      by_contra hc
      push_neg at hc
      obtain ⟨hs1, hs2, hsz, hns, ha0, ha1⟩ := hc
      have hg1 : ¬ (p.group1_std ≤ 0 ∨ p.group2_std ≤ 0) := by
        push_neg
        exact ⟨hs1, hs2⟩
      have hga : ¬ (p.alpha_level ≤ 0 ∨ 1 ≤ p.alpha_level) := by
        push_neg
        exact ⟨ha0, ha1⟩
      simp only [run_simulation] at hm
      rw [if_neg hg1, if_neg hsz, if_neg hns, if_neg hga] at hm
      split at hm
      next e heq =>
        cases Except.error.inj hm
        rcases runTrials_error_shape tCdf tInv ω p _ hs1 hs2 hsz _ _ _ heq with
          rfl | rfl | rfl
        · exact shape_msgs_not_invalid.1 hmem
        · exact shape_msgs_not_invalid.2.1 hmem
        · exact shape_msgs_not_invalid.2.2 hmem
      next acc heq => exact Except.noConfusion hm
    · intro hd
      by_cases h1 : p.group1_std ≤ 0 ∨ p.group2_std ≤ 0
      · exact ⟨errStdMsg, by simp [run_simulation, h1],
          by simp [invalidParamMsgs]⟩
      by_cases h2 : p.sample_size_per_group = 0
      · exact ⟨errSizeMsg, by simp [run_simulation, h1, h2],
          by simp [invalidParamMsgs]⟩
      by_cases h3 : p.num_simulations = 0
      · exact ⟨errNumSimsMsg, by simp [run_simulation, h1, h2, h3],
          by simp [invalidParamMsgs]⟩
      by_cases h4 : p.alpha_level ≤ 0 ∨ 1 ≤ p.alpha_level
      · exact ⟨errAlphaMsg, by simp [run_simulation, h1, h2, h3, h4],
          by simp [invalidParamMsgs]⟩
      · exact absurd hd (by tauto)
  · intro es n1 n2 cl hcl
    simp [calculate_confidence_interval, hcl]

/-- Witness for C7: a zero `group1_std` makes the run fail with an
`InvalidParameter` message, and a confidence level of `3/2` is rejected. -/
theorem c7_invalid_parameter_witness :
    IsInvalidParamErr (run_simulation (fun _ _ => F.fin 0) (fun _ _ => (0 : ℝ))
      (fun _ => (0 : ℝ)) ⟨0, 0, 0, 1, 30, 100, 0, 1 / 20⟩) ∧
    calculate_confidence_interval (fun _ _ => (0 : ℝ)) (F.fin 0) 30 30 (3 / 2) =
      .error errConfMsg :=
  ⟨(c7_invalid_parameter (fun _ _ => F.fin 0) (fun _ _ => (0 : ℝ))
      (fun _ => (0 : ℝ)) ⟨0, 0, 0, 1, 30, 100, 0, 1 / 20⟩).1.mpr
      (Or.inl (by norm_num)),
   (c7_invalid_parameter (fun _ _ => F.fin 0) (fun _ _ => (0 : ℝ))
      (fun _ => (0 : ℝ)) ⟨0, 0, 0, 1, 30, 100, 0, 1 / 20⟩).2 (F.fin 0) 30 30
      (3 / 2) (Or.inr (by norm_num))⟩

/-! ### The trial-loop invariant -/

/-- A successful trial loop returns exactly `k` results, and the separate
accumulator vectors mirror the result list. -/
theorem runTrials_ok_inv (tCdf : ℝ → F → F) (tInv : ℝ → ℝ → ℝ)
    (ω : ℕ → ℝ) (p : SimulationParams) (te : ℝ) :
    ∀ k pos acc, runTrials tCdf tInv ω p te k pos = .ok acc →
      acc.results.length = k ∧
      acc.p_values = acc.results.map (·.p_value) ∧
      acc.effect_sizes = acc.results.map (·.effect_size) ∧
      acc.ci_widths.length = k := by
  intro k
  induction k with
  | zero =>
      intro pos acc hacc
      cases Except.ok.inj hacc
      exact ⟨rfl, rfl, rfl, rfl⟩
  | succ n ih =>
      intro pos acc hacc
      rw [runTrials] at hacc
      split at hacc
      next => exact Except.noConfusion hacc
      next pr heq =>
        split at hacc
        next => exact Except.noConfusion hacc
        next t heq2 =>
          split at hacc
          next => exact Except.noConfusion hacc
          next ci heq3 =>
            split at hacc
            next => exact Except.noConfusion hacc
            next rest heq4 =>
              cases Except.ok.inj hacc
              obtain ⟨hl, hp, he, hw⟩ := ih _ _ heq4
              exact ⟨by simp [hl], by simp [hp], by simp [he], by simp [hw]⟩

/-- C1: for validated parameters, a successful `run_simulation` returns
exactly `num_simulations` individual results, `total_count` equal to
`num_simulations`, and `significant_count ≤ total_count`. -/
theorem c1_run_simulation (tCdf : ℝ → F → F) (tInv : ℝ → ℝ → ℝ)
    (ω : ℕ → ℝ) (p : SimulationParams)
    (h1 : 0 < p.group1_std) (h2 : 0 < p.group2_std)
    (h3 : p.sample_size_per_group ≠ 0) (h4 : p.num_simulations ≠ 0)
    (h5 : 0 < p.alpha_level) (h6 : p.alpha_level < 1) :
    ∀ res, run_simulation tCdf tInv ω p = .ok res →
      res.individual_results.length = p.num_simulations ∧
      res.total_count = p.num_simulations ∧
      res.significant_count ≤ res.total_count := by
  intro res hres
  have hg1 : ¬ (p.group1_std ≤ 0 ∨ p.group2_std ≤ 0) := by
    push_neg
    exact ⟨h1, h2⟩
  have hga : ¬ (p.alpha_level ≤ 0 ∨ 1 ≤ p.alpha_level) := by
    push_neg
    exact ⟨h5, h6⟩
  simp only [run_simulation] at hres
  rw [if_neg hg1, if_neg h3, if_neg h4, if_neg hga] at hres
  split at hres
  next e heq => exact Except.noConfusion hres
  next acc heq =>
    cases Except.ok.inj hres
    obtain ⟨hl, _, _, _⟩ := runTrials_ok_inv tCdf tInv ω p _ _ _ _ heq
    refine ⟨hl, rfl, ?_⟩
    calc acc.results.countP (·.significant)
        ≤ acc.results.length := List.countP_le_length _
      _ = p.num_simulations := hl

/-- Witness for C1 on a concrete valid configuration. -/
theorem c1_run_simulation_witness :
    (0 : ℝ) < 1 ∧ (30 : ℕ) ≠ 0 ∧ (100 : ℕ) ≠ 0 ∧ (0 : ℝ) < 1 / 20 ∧
      (1 / 20 : ℝ) < 1 ∧
      (∀ res, run_simulation (fun _ _ => F.fin 0) (fun _ _ => (0 : ℝ))
          (fun _ => (0 : ℝ)) ⟨0, 1, 0, 1, 30, 100, 0, 1 / 20⟩ = .ok res →
        res.individual_results.length = 100 ∧ res.total_count = 100 ∧
          res.significant_count ≤ res.total_count) :=
  ⟨by norm_num, by norm_num, by norm_num, by norm_num, by norm_num,
    c1_run_simulation (fun _ _ => F.fin 0) (fun _ _ => (0 : ℝ))
      (fun _ => (0 : ℝ)) ⟨0, 1, 0, 1, 30, 100, 0, 1 / 20⟩ (by norm_num)
      (by norm_num) (by norm_num) (by norm_num) (by norm_num) (by norm_num)⟩

/-! ### Sorting lemmas for the percentile claim -/

theorem F.ble_refl (a : F) : F.ble a a = true := by
  cases a <;> simp [F.ble]

theorem F.ble_total (a b : F) : F.ble a b = true ∨ F.ble b a = true := by
  cases a <;> cases b <;> simp [F.ble]
  exact le_total _ _

theorem F.ble_trans {a b c : F} (h1 : F.ble a b = true)
    (h2 : F.ble b c = true) : F.ble a c = true := by
  cases a <;> cases b <;> cases c <;> simp_all [F.ble]
  linarith

theorem F.ble_fin_iff (a b : ℝ) : F.ble (F.fin a) (F.fin b) = true ↔ a ≤ b := by
  simp [F.ble]

theorem insertSorted_length (a : F) (l : List F) :
    (F.insertSorted a l).length = l.length + 1 := by
  induction l with
  | nil => rfl
  | cons b l ih =>
      rw [F.insertSorted]
      split
      · simp
      · simp [ih]

theorem insertSorted_mem (x a : F) (l : List F) :
    x ∈ F.insertSorted a l ↔ x = a ∨ x ∈ l := by
  induction l with
  | nil => simp [F.insertSorted]
  | cons b l ih =>
      rw [F.insertSorted]
      split
      · simp
      · simp only [List.mem_cons, ih]
        tauto

theorem insertSorted_pairwise (a : F) (l : List F)
    (h : l.Pairwise (fun x y => F.ble x y = true)) :
    (F.insertSorted a l).Pairwise (fun x y => F.ble x y = true) := by
  induction l with
  | nil => simp [F.insertSorted]
  | cons b l ih =>
      rw [List.pairwise_cons] at h
      obtain ⟨hb, hl⟩ := h
      rw [F.insertSorted]
      split
      next hab =>
        refine List.pairwise_cons.mpr ⟨?_, List.pairwise_cons.mpr ⟨hb, hl⟩⟩
        intro x hx
        rcases List.mem_cons.mp hx with rfl | hx
        · exact hab
        · exact F.ble_trans hab (hb x hx)
      next hab =>
        have hba : F.ble b a = true := by
          rcases F.ble_total a b with h | h
          · exact absurd h hab
          · exact h
        refine List.pairwise_cons.mpr ⟨?_, ih hl⟩
        intro x hx
        rcases (insertSorted_mem x a l).mp hx with rfl | hx
        · exact hba
        · exact hb x hx

theorem sortAsc_length (l : List F) : (F.sortAsc l).length = l.length := by
  induction l with
  | nil => rfl
  | cons a l ih =>
      rw [F.sortAsc, insertSorted_length, ih]
      simp

theorem sortAsc_mem (x : F) (l : List F) : x ∈ F.sortAsc l ↔ x ∈ l := by
  induction l with
  | nil => simp [F.sortAsc]
  | cons a l ih =>
      rw [F.sortAsc, insertSorted_mem]
      simp [ih]

theorem sortAsc_pairwise (l : List F) :
    (F.sortAsc l).Pairwise (fun x y => F.ble x y = true) := by
  induction l with
  | nil => simp [F.sortAsc]
  | cons a l ih => exact insertSorted_pairwise a _ ih

theorem sorted_getD_ble (l : List F)
    (hs : l.Pairwise (fun x y => F.ble x y = true))
    (i j : ℕ) (hij : i ≤ j) (hj : j < l.length) :
    F.ble (l.getD i default) (l.getD j default) = true := by
  have hi : i < l.length := lt_of_le_of_lt hij hj
  rw [List.getD_eq_get l default hi, List.getD_eq_get l default hj]
  rcases eq_or_lt_of_le hij with rfl | hlt
  · exact F.ble_refl _
  · exact List.pairwise_iff_get.mp hs ⟨i, hi⟩ ⟨j, hj⟩ hlt

/-! ### Finiteness of collected effect sizes -/

theorem generate_samples_ok_shape (ω : ℕ → ℝ) (pos : ℕ) (m1 s1 m2 s2 : ℝ)
    (n : ℕ) (g1 g2 : List F)
    (h : generate_samples ω pos m1 s1 m2 s2 n = .ok (g1, g2)) :
    ∃ l1 l2 : List ℝ, g1 = l1.map F.fin ∧ g2 = l2.map F.fin ∧
      l1.length = n ∧ l2.length = n := by
  unfold generate_samples at h
  split at h
  · exact Except.noConfusion h
  · split at h
    · exact Except.noConfusion h
    · obtain ⟨h1, h2⟩ := Prod.mk.inj (Except.ok.inj h)
      refine ⟨(List.range n).map fun i => m1 + s1 * ω (pos + i),
              (List.range n).map fun i => m2 + s2 * ω (pos + n + i),
              ?_, ?_, by simp, by simp⟩
      · rw [← h1, List.map_map]
        rfl
      · rw [← h2, List.map_map]
        rfl

theorem t_test_ok_effect_fin (tCdf : ℝ → F → F) (g1 g2 : List ℝ)
    (hlen : g1.length = g2.length) (t pv es : F)
    (hok : t_test tCdf (g1.map F.fin) (g2.map F.fin) = .ok (t, pv, es)) :
    ∃ r : ℝ, es = F.fin r := by
  unfold t_test at hok
  split at hok
  · exact Except.noConfusion hok
  · split at hok
    · exact Except.noConfusion hok
    next hfe =>
      split at hok
      next => exact Except.noConfusion hok
      next dfv heq =>
        unfold studentsTNew at heq
        split at heq
        next hdf =>
          simp only [List.length_map] at hdf
          have h2 : 2 ≤ g1.length := by
            by_contra hlt
            push_neg at hlt
            have hc1 : (g1.length : ℝ) ≤ 1 := by
              exact_mod_cast Nat.le_of_lt_succ hlt
            have hc2 : (g2.length : ℝ) ≤ 1 := by
              rw [← hlen] at *
              exact hc1
            linarith
          have h2' : 2 ≤ g2.length := hlen ▸ h2
          rw [seF_fin g1 g2 h2 h2'] at hfe
          have hne : pooledSE g1 g2 ≠ 0 := by
            simpa [F.feq] using hfe
          obtain ⟨ht1, hrest⟩ := Prod.mk.inj (Except.ok.inj hok)
          obtain ⟨ht2, ht3⟩ := Prod.mk.inj hrest
          refine ⟨(sampleMean g1 - sampleMean g2) /
            Real.sqrt ((sampleVar g1 + sampleVar g2) / 2), ?_⟩
          rw [← ht3, meanF_fin g1 (List.length_pos.mp (by omega)),
            meanF_fin g2 (List.length_pos.mp (by omega)),
            pooledStdF_fin g1 g2 h2 h2', F.sub_fin,
            F.div_fin_of_ne _ (pooledStd_ne_zero g1 g2 h2 h2' hne)]
        next => exact Except.noConfusion heq

/-- Every effect size collected by a successful trial loop is finite. -/
theorem runTrials_ok_fin (tCdf : ℝ → F → F) (tInv : ℝ → ℝ → ℝ)
    (ω : ℕ → ℝ) (p : SimulationParams) (te : ℝ) :
    ∀ k pos acc, runTrials tCdf tInv ω p te k pos = .ok acc →
      ∀ x ∈ acc.effect_sizes, ∃ r : ℝ, x = F.fin r := by
  intro k
  induction k with
  | zero =>
      intro pos acc hacc
      cases Except.ok.inj hacc
      simp
  | succ n ih =>
      intro pos acc hacc
      rw [runTrials] at hacc
      split at hacc
      next => exact Except.noConfusion hacc
      next pr heq =>
        split at hacc
        next => exact Except.noConfusion hacc
        next tr heq2 =>
          split at hacc
          next => exact Except.noConfusion hacc
          next ci heq3 =>
            split at hacc
            next => exact Except.noConfusion hacc
            next rest heq4 =>
              cases Except.ok.inj hacc
              intro x hx
              rcases List.mem_cons.mp hx with rfl | hx
              · obtain ⟨l1, l2, hg1, hg2, hl1, hl2⟩ :=
                  generate_samples_ok_shape ω pos _ _ _ _ _ _ _ heq
                rw [hg1, hg2] at heq2
                exact t_test_ok_effect_fin tCdf l1 l2 (by rw [hl1, hl2]) _ _ _
                  heq2
              · exact ih _ _ heq4 x hx

/-- C6: in a successful run, the overall effect-size interval is the pair
of direct-index percentiles `floor(0.025·n)` and `min(floor(0.975·n), n−1)`
of the ascending sort of the collected effect sizes, and for
`num_simulations ≥ 2` its lower bound is at most its upper bound. -/
theorem c6_effect_size_ci (tCdf : ℝ → F → F) (tInv : ℝ → ℝ → ℝ)
    (ω : ℕ → ℝ) (p : SimulationParams)
    (h1 : 0 < p.group1_std) (h2 : 0 < p.group2_std)
    (h3 : p.sample_size_per_group ≠ 0) (h4 : p.num_simulations ≠ 0)
    (h5 : 0 < p.alpha_level) (h6 : p.alpha_level < 1) :
    ∀ res, run_simulation tCdf tInv ω p = .ok res →
      (res.effect_size_ci =
        ((F.sortAsc (res.individual_results.map (·.effect_size))).getD
            ⌊(0.025 : ℝ) * (res.individual_results.length : ℝ)⌋₊ default,
         (F.sortAsc (res.individual_results.map (·.effect_size))).getD
            (min ⌊(0.975 : ℝ) * (res.individual_results.length : ℝ)⌋₊
              (res.individual_results.length - 1)) default)) ∧
      (2 ≤ p.num_simulations →
        F.le res.effect_size_ci.1 res.effect_size_ci.2) := by
  intro res hres
  have hg1 : ¬ (p.group1_std ≤ 0 ∨ p.group2_std ≤ 0) := by
    push_neg
    exact ⟨h1, h2⟩
  have hga : ¬ (p.alpha_level ≤ 0 ∨ 1 ≤ p.alpha_level) := by
    push_neg
    exact ⟨h5, h6⟩
  simp only [run_simulation] at hres
  rw [if_neg hg1, if_neg h3, if_neg h4, if_neg hga] at hres
  split at hres
  next e heq => exact Except.noConfusion hres
  next acc heq =>
    have hfin := runTrials_ok_fin tCdf tInv ω p _ _ _ _ heq
    obtain ⟨hl, hp, hes, hw⟩ := runTrials_ok_inv tCdf tInv ω p _ _ _ _ heq
    cases Except.ok.inj hres
    have hlen2 : (acc.results.map (·.effect_size)).length =
        acc.effect_sizes.length := by
      rw [hes]
    constructor
    · dsimp only
      rw [← hes, hes, List.length_map, ← hes]
    · intro hn2
      dsimp only
      have hn : acc.effect_sizes.length = p.num_simulations := by
        rw [hes, List.length_map, hl]
      have hnn : 2 ≤ acc.effect_sizes.length := hn ▸ hn2
      have hnr : (0 : ℝ) < (acc.effect_sizes.length : ℝ) := by
        exact_mod_cast (by omega : 0 < acc.effect_sizes.length)
      have hi : ⌊(0.025 : ℝ) * (acc.effect_sizes.length : ℝ)⌋₊ <
          acc.effect_sizes.length := by
        rw [Nat.floor_lt (by positivity)]
        calc (0.025 : ℝ) * (acc.effect_sizes.length : ℝ)
            < 1 * (acc.effect_sizes.length : ℝ) :=
              mul_lt_mul_of_pos_right (by norm_num) hnr
          _ = (acc.effect_sizes.length : ℝ) := one_mul _
      have hij : ⌊(0.025 : ℝ) * (acc.effect_sizes.length : ℝ)⌋₊ ≤
          min ⌊(0.975 : ℝ) * (acc.effect_sizes.length : ℝ)⌋₊
            (acc.effect_sizes.length - 1) := by
        refine le_min ?_ (by omega)
        exact Nat.floor_mono
          (mul_le_mul_of_nonneg_right (by norm_num) hnr.le)
      have hj : min ⌊(0.975 : ℝ) * (acc.effect_sizes.length : ℝ)⌋₊
          (acc.effect_sizes.length - 1) < acc.effect_sizes.length :=
        lt_of_le_of_lt (min_le_right _ _) (by omega)
      have hsl : (F.sortAsc acc.effect_sizes).length =
          acc.effect_sizes.length := sortAsc_length _
      have hble := sorted_getD_ble (F.sortAsc acc.effect_sizes)
        (sortAsc_pairwise _) _ _ hij (by rw [hsl]; exact hj)
      have hmem1 : (F.sortAsc acc.effect_sizes).getD
          ⌊(0.025 : ℝ) * (acc.effect_sizes.length : ℝ)⌋₊ default ∈
            acc.effect_sizes := by
        rw [← sortAsc_mem]
        rw [List.getD_eq_get _ default (by rw [hsl]; omega)]
        exact List.get_mem _ _ _
      have hmem2 : (F.sortAsc acc.effect_sizes).getD
          (min ⌊(0.975 : ℝ) * (acc.effect_sizes.length : ℝ)⌋₊
            (acc.effect_sizes.length - 1)) default ∈ acc.effect_sizes := by
        rw [← sortAsc_mem]
        rw [List.getD_eq_get _ default (by rw [hsl]; exact hj)]
        exact List.get_mem _ _ _
      obtain ⟨r1, hr1⟩ := hfin _ hmem1
      obtain ⟨r2, hr2⟩ := hfin _ hmem2
      rw [hr1, hr2] at hble ⊢
      rw [F.le_fin]
      exact (F.ble_fin_iff r1 r2).mp hble

/-- Witness for C6 on a concrete valid configuration. -/
theorem c6_effect_size_ci_witness :
    (0 : ℝ) < 1 ∧ (30 : ℕ) ≠ 0 ∧ (100 : ℕ) ≠ 0 ∧ (0 : ℝ) < 1 / 20 ∧
      (1 / 20 : ℝ) < 1 ∧
      (∀ res, run_simulation (fun _ _ => F.fin 0) (fun _ _ => (0 : ℝ))
          (fun _ => (0 : ℝ)) ⟨0, 1, 0, 1, 30, 100, 0, 1 / 20⟩ = .ok res →
        (res.effect_size_ci =
          ((F.sortAsc (res.individual_results.map (·.effect_size))).getD
              ⌊(0.025 : ℝ) * (res.individual_results.length : ℝ)⌋₊ default,
           (F.sortAsc (res.individual_results.map (·.effect_size))).getD
              (min ⌊(0.975 : ℝ) * (res.individual_results.length : ℝ)⌋₊
                (res.individual_results.length - 1)) default)) ∧
        (2 ≤ (100 : ℕ) →
          F.le res.effect_size_ci.1 res.effect_size_ci.2)) :=
  ⟨by norm_num, by norm_num, by norm_num, by norm_num, by norm_num,
    c6_effect_size_ci (fun _ _ => F.fin 0) (fun _ _ => (0 : ℝ))
      (fun _ => (0 : ℝ)) ⟨0, 1, 0, 1, 30, 100, 0, 1 / 20⟩ (by norm_num)
      (by norm_num) (by norm_num) (by norm_num) (by norm_num) (by norm_num)⟩

/-! ### CSV text lemmas -/

theorem digitChar_ne (d : ℕ) (h : d < 10) :
    digitChar d ≠ ',' ∧ digitChar d ≠ '\n' := by
  interval_cases d <;> exact ⟨by decide, by decide⟩

theorem natChars_mem (n : ℕ) :
    ∀ c ∈ natChars n, ∃ d, d < 10 ∧ c = digitChar d := by
  induction n using Nat.strong_induction_on with
  | _ n ih =>
      intro c hc
      rw [natChars] at hc
      split at hc
      next h =>
        simp only [List.mem_singleton] at hc
        exact ⟨n, h, hc⟩
      next h =>
        rcases List.mem_append.mp hc with h1 | h1
        · exact ih (n / 10) (Nat.div_lt_self (by omega) (by omega)) c h1
        · simp only [List.mem_singleton] at h1
          exact ⟨n % 10, Nat.mod_lt _ (by omega), h1⟩

theorem natChars_ne_comma (n : ℕ) : ∀ c ∈ natChars n, c ≠ ',' := by
  intro c hc
  obtain ⟨d, hd, rfl⟩ := natChars_mem n c hc
  exact (digitChar_ne d hd).1

theorem natChars_no_nl (n : ℕ) : '\n' ∉ natChars n := by
  intro h
  obtain ⟨d, hd, hc⟩ := natChars_mem n _ h
  exact (digitChar_ne d hd).2 hc.symm

theorem no_nl_append {a b : List Char} (ha : '\n' ∉ a) (hb : '\n' ∉ b) :
    '\n' ∉ a ++ b := by
  intro h
  rcases List.mem_append.mp h with h | h
  · exact ha h
  · exact hb h

theorem no_nl_comma_cons {b : List Char} (hb : '\n' ∉ b) :
    '\n' ∉ ',' :: b := by
  intro h
  rcases List.mem_cons.mp h with h | h
  · exact absurd h (by decide)
  · exact hb h

theorem csvRow_shape (render : F → List Char) (i : ℕ) (r : SimulationResult) :
    csvRow render i r = natChars (i + 1) ++ ',' ::
      (render r.p_value ++ ',' :: (render r.effect_size ++ ',' ::
       (render r.confidence_interval.1 ++ ',' ::
        (render r.confidence_interval.2 ++ ',' :: (render r.s_value ++ ',' ::
         (if r.significant then trueChars else falseChars)))))) := by
  simp [csvRow, List.append_assoc]

theorem csvRow_no_nl (render : F → List Char) (hr : ∀ x, '\n' ∉ render x)
    (i : ℕ) (r : SimulationResult) : '\n' ∉ csvRow render i r := by
  have hbool : '\n' ∉ (if r.significant then trueChars else falseChars) := by
    cases r.significant <;> simp <;> decide
  rw [csvRow_shape]
  exact no_nl_append (natChars_no_nl _) (no_nl_comma_cons (no_nl_append (hr _)
    (no_nl_comma_cons (no_nl_append (hr _) (no_nl_comma_cons (no_nl_append
      (hr _) (no_nl_comma_cons (no_nl_append (hr _) (no_nl_comma_cons
        (no_nl_append (hr _) (no_nl_comma_cons hbool)))))))))))

theorem splitOnNl_append (a rest : List Char) (ha : '\n' ∉ a) :
    splitOnNl (a ++ '\n' :: rest) = a :: splitOnNl rest := by
  induction a with
  | nil => simp [splitOnNl]
  | cons c a ih =>
      have hc : c ≠ '\n' := fun h => ha (h ▸ List.mem_cons_self _ _)
      have ha' : '\n' ∉ a := fun h => ha (List.mem_cons_of_mem _ h)
      rw [List.cons_append, splitOnNl, if_neg hc, ih ha']

/-- The rows of `csvRows`, as a list of lines. -/
def rowsList (render : F → List Char) : ℕ → List SimulationResult →
    List (List Char)
  | _, [] => []
  | i, r :: rs => csvRow render i r :: rowsList render (i + 1) rs

theorem rowsList_length (render : F → List Char) :
    ∀ (rs : List SimulationResult) (i : ℕ),
      (rowsList render i rs).length = rs.length := by
  intro rs
  induction rs with
  | nil => intro i; rfl
  | cons r rs ih =>
      intro i
      rw [rowsList, List.length_cons, ih, List.length_cons]

theorem splitOnNl_csvRows (render : F → List Char) (hr : ∀ x, '\n' ∉ render x) :
    ∀ (rs : List SimulationResult) (i : ℕ),
      splitOnNl (csvRows render i rs) = rowsList render i rs ++ [[]] := by
  intro rs
  induction rs with
  | nil => intro i; rfl
  | cons r rs ih =>
      intro i
      rw [csvRows, splitOnNl_append _ _ (csvRow_no_nl render hr i r), ih,
        rowsList, List.cons_append]

theorem takeWhile_append_comma (a b : List Char) (ha : ∀ c ∈ a, c ≠ ',') :
    (a ++ ',' :: b).takeWhile (· ≠ ',') = a := by
  induction a with
  | nil => simp
  | cons c a ih =>
      have hc : c ≠ ',' := ha c (List.mem_cons_self _ _)
      rw [List.cons_append, List.takeWhile_cons, if_pos (by simpa using hc),
        ih fun x hx => ha x (List.mem_cons_of_mem _ hx)]

theorem firstField_csvRow (render : F → List Char) (i : ℕ)
    (r : SimulationResult) :
    firstField (csvRow render i r) = natChars (i + 1) := by
  rw [firstField, csvRow_shape,
    takeWhile_append_comma _ _ (natChars_ne_comma _)]

theorem rowsList_firstField (render : F → List Char) :
    ∀ (rs : List SimulationResult) (i j : ℕ), j < rs.length →
      firstField ((rowsList render i rs).getD j []) =
        natChars (i + j + 1) := by
  intro rs
  induction rs with
  | nil =>
      intro i j hj
      exact absurd hj (by simp)
  | cons r rs ih =>
      intro i j hj
      cases j with
      | zero =>
          rw [rowsList]
          simpa using firstField_csvRow render i r
      | succ j' =>
          rw [rowsList]
          simp only [List.getD_cons_succ]
          rw [ih (i + 1) j' (by simpa using hj)]
          congr 1
          omega

/-- C8: `export_to_csv` always succeeds; the text is one header line equal
to the fixed header string followed by one newline-terminated data line
per trial in trial order, so a run of `N` trials yields `N + 1` lines, and
the `simulation_id` field (first comma-separated field) of the `j`-th data
line is the numeral `j + 1` (1-based). -/
theorem c8_export_csv (render : F → List Char) (res : AggregatedResults)
    (hr : ∀ x, '\n' ∉ render x) :
    export_to_csv render res =
      .ok (headerStr.toList ++ '\n' ::
        csvRows render 0 res.individual_results) ∧
    textLines (headerStr.toList ++ '\n' ::
        csvRows render 0 res.individual_results) =
      headerStr.toList :: rowsList render 0 res.individual_results ∧
    (textLines (headerStr.toList ++ '\n' ::
        csvRows render 0 res.individual_results)).length =
      res.individual_results.length + 1 ∧
    (∀ j, j < res.individual_results.length →
      firstField ((rowsList render 0 res.individual_results).getD j []) =
        natChars (j + 1)) := by
  have hnl : '\n' ∉ headerStr.toList := by decide
  have hsplit : splitOnNl (headerStr.toList ++ '\n' ::
      csvRows render 0 res.individual_results) =
      headerStr.toList :: (rowsList render 0 res.individual_results ++ [[]]) := by
    rw [splitOnNl_append _ _ hnl, splitOnNl_csvRows render hr]
  have hlines : textLines (headerStr.toList ++ '\n' ::
      csvRows render 0 res.individual_results) =
      headerStr.toList :: rowsList render 0 res.individual_results := by
    rw [textLines, hsplit]
    rw [show headerStr.toList :: (rowsList render 0 res.individual_results ++
      [[]]) = (headerStr.toList :: rowsList render 0 res.individual_results) ++
      [[]] from by rw [List.cons_append]]
    rw [List.getLast?_concat, if_pos rfl, List.dropLast_concat]
  refine ⟨rfl, hlines, ?_, ?_⟩
  · rw [hlines, List.length_cons, rowsList_length]
  · intro j hj
    simpa using rowsList_firstField render res.individual_results 0 j hj

/-- Witness for C8 on a three-trial result with a trivial renderer. -/
theorem c8_export_csv_witness :
    (∀ x, '\n' ∉ (fun _ : F => ['0']) x) ∧
    ((fun res => export_to_csv (fun _ : F => ['0']) res =
        .ok (headerStr.toList ++ '\n' ::
          csvRows (fun _ : F => ['0']) 0 res.individual_results) ∧
      textLines (headerStr.toList ++ '\n' ::
          csvRows (fun _ : F => ['0']) 0 res.individual_results) =
        headerStr.toList ::
          rowsList (fun _ : F => ['0']) 0 res.individual_results ∧
      (textLines (headerStr.toList ++ '\n' ::
          csvRows (fun _ : F => ['0']) 0 res.individual_results)).length =
        res.individual_results.length + 1 ∧
      (∀ j, j < res.individual_results.length →
        firstField ((rowsList (fun _ : F => ['0']) 0
            res.individual_results).getD j []) = natChars (j + 1)))
      ⟨[⟨F.fin 0, F.fin 0, (F.fin 0, F.fin 0), F.fin 0, false⟩,
        ⟨F.fin 0, F.fin 0, (F.fin 0, F.fin 0), F.fin 0, false⟩,
        ⟨F.fin 0, F.fin 0, (F.fin 0, F.fin 0), F.fin 0, false⟩], [], 0, 3,
       F.fin 0, (F.fin 0, F.fin 0), F.fin 0, F.fin 0⟩) :=
  ⟨fun x => by show '\n' ∉ ['0']; decide,
    c8_export_csv (fun _ : F => ['0'])
      ⟨[⟨F.fin 0, F.fin 0, (F.fin 0, F.fin 0), F.fin 0, false⟩,
        ⟨F.fin 0, F.fin 0, (F.fin 0, F.fin 0), F.fin 0, false⟩,
        ⟨F.fin 0, F.fin 0, (F.fin 0, F.fin 0), F.fin 0, false⟩], [], 0, 3,
       F.fin 0, (F.fin 0, F.fin 0), F.fin 0, F.fin 0⟩
      (fun x => by show '\n' ∉ ['0']; decide)⟩

/-! ### Histogram lemmas -/

/-- Membership of a real p-value in bin `i` of `n`, exactly as `mkBin`
counts it (closed-open, except the last bin which is closed). -/
def binPredR (n i : ℕ) (r : ℝ) : Prop :=
  (i : ℝ) * (1 / (n : ℝ)) ≤ r ∧
    (if i = n - 1 then r ≤ ((i + 1 : ℕ) : ℝ) * (1 / (n : ℝ))
     else r < ((i + 1 : ℕ) : ℝ) * (1 / (n : ℝ)))

theorem countP_ext (l : List F) (f g : F → Bool) (h : ∀ x, f x = g x) :
    l.countP f = l.countP g := by
  congr 1
  funext x
  exact h x

theorem mkBin_count_cons (r : ℝ) (ps : List F) (alpha : F) (n i : ℕ) :
    (mkBin (F.fin r :: ps) alpha n i).count =
      (mkBin ps alpha n i).count + (if binPredR n i r then 1 else 0) := by
  unfold mkBin binPredR
  by_cases h : i = n - 1
  · simp only [h, if_true, if_pos rfl, List.countP_cons]
    congr 1
    simp [F.le]
  · simp only [if_neg h, List.countP_cons]
    congr 1
    simp [F.le, F.lt]

theorem sum_map_add_nat {α : Type} (L : List α) (f g : α → ℕ) :
    (L.map fun i => f i + g i).sum = (L.map f).sum + (L.map g).sum := by
  induction L with
  | nil => rfl
  | cons a L ih =>
      simp only [List.map_cons, List.sum_cons, ih]
      omega

theorem sum_indicator_eq_one {P : ℕ → Prop} (i₀ : ℕ) (hP : P i₀) :
    ∀ n, i₀ < n → (∀ j, j < n → P j → j = i₀) →
      ((List.range n).map fun i => if P i then 1 else 0).sum = 1 := by
  intro n
  induction n with
  | zero =>
      intro h _
      omega
  | succ m ih =>
      intro hi huniq
      rw [List.range_succ, List.map_append, List.sum_append]
      by_cases hm : i₀ = m
      · subst hm
        have hz : ((List.range i₀).map fun i => if P i then 1 else 0).sum = 0 := by
          apply List.sum_eq_zero
          intro x hx
          obtain ⟨j, hj, rfl⟩ := List.mem_map.mp hx
          have hj' : j < i₀ := List.mem_range.mp hj
          rw [if_neg]
          intro hPj
          exact absurd (huniq j (by omega) hPj) (by omega)
        rw [hz]
        simp [hP]
      · have hs : ((List.range m).map fun i => if P i then 1 else 0).sum = 1 :=
          ih (by omega) (fun j hj hPj => huniq j (by omega) hPj)
        rw [hs]
        have hnm : ¬ P m := fun hPm => hm (huniq m (by omega) hPm).symm
        simp [hnm]

/-- Every real value of `[0,1]` lies in exactly one histogram bin. -/
theorem binPredR_exists_unique (n : ℕ) (hn : 1 ≤ n) (r : ℝ)
    (h0 : 0 ≤ r) (h1 : r ≤ 1) :
    ∃ i₀, i₀ < n ∧ binPredR n i₀ r ∧
      ∀ j, j < n → binPredR n j r → j = i₀ := by
  have hnr : (0 : ℝ) < (n : ℝ) := by exact_mod_cast hn
  have hmono : ∀ j k, j < k → k < n → binPredR n j r → binPredR n k r →
      False := by
    intro j k hjk hk hPj hPk
    have hjne : j ≠ n - 1 := by omega
    obtain ⟨_, hju⟩ := hPj
    rw [if_neg hjne] at hju
    obtain ⟨hkl, _⟩ := hPk
    have hjk' : ((j + 1 : ℕ) : ℝ) ≤ (k : ℝ) := by exact_mod_cast hjk
    have hmul : ((j + 1 : ℕ) : ℝ) * (1 / (n : ℝ)) ≤ (k : ℝ) * (1 / (n : ℝ)) :=
      mul_le_mul_of_nonneg_right hjk' (by positivity)
    linarith
  have hfl0 : (0 : ℝ) ≤ r * (n : ℝ) := by positivity
  have hex : binPredR n (min ⌊r * (n : ℝ)⌋₊ (n - 1)) r := by
    rcases le_or_lt ⌊r * (n : ℝ)⌋₊ (n - 1) with hle | hgt
    · rw [min_eq_left hle]
      constructor
      · rw [mul_one_div, div_le_iff hnr]
        exact Nat.floor_le hfl0
      · by_cases hlast : ⌊r * (n : ℝ)⌋₊ = n - 1
        · rw [if_pos hlast]
          have hcast : ((⌊r * (n : ℝ)⌋₊ + 1 : ℕ) : ℝ) = (n : ℝ) := by
            rw [hlast]
            have he : n - 1 + 1 = n := by omega
            rw [he]
          rw [hcast, mul_one_div, div_self (ne_of_gt hnr)]
          exact h1
        · rw [if_neg hlast, mul_one_div, lt_div_iff hnr]
          have hup : r * (n : ℝ) < ⌊r * (n : ℝ)⌋₊ + 1 :=
            Nat.lt_floor_add_one _
          push_cast
          linarith
      -- fallthrough handled in both branches above
    · rw [min_eq_right (by omega)]
      have hge : (n : ℝ) ≤ (⌊r * (n : ℝ)⌋₊ : ℝ) := by
        exact_mod_cast (by omega : n ≤ ⌊r * (n : ℝ)⌋₊)
      have hge' : (n : ℝ) ≤ r * (n : ℝ) := le_trans hge (Nat.floor_le hfl0)
      have hr1 : 1 ≤ r := by nlinarith
      have hr : r = 1 := le_antisymm h1 hr1
      subst hr
      constructor
      · have hc : ((n - 1 : ℕ) : ℝ) ≤ (n : ℝ) := by
          exact_mod_cast (by omega : n - 1 ≤ n)
        rw [mul_one_div, div_le_one hnr]
        exact hc
      · rw [if_pos rfl]
        have hc : ((n - 1 + 1 : ℕ) : ℝ) = (n : ℝ) := by
          have : n - 1 + 1 = n := by omega
          rw [this]
        rw [hc, mul_one_div, div_self (ne_of_gt hnr)]
  refine ⟨min ⌊r * (n : ℝ)⌋₊ (n - 1), by omega, hex, ?_⟩
  intro j hj hPj
  rcases Nat.lt_trichotomy j (min ⌊r * (n : ℝ)⌋₊ (n - 1)) with h | h | h
  · exact absurd (hmono j _ h (by omega) hPj hex) not_false
  · exact h
  · exact absurd (hmono _ j h hj hex hPj) not_false

theorem hist_count_sum (ps : List F) (alpha : F) (n : ℕ) (hn : 1 ≤ n)
    (hps : ∀ q ∈ ps, ∃ r : ℝ, q = F.fin r ∧ 0 ≤ r ∧ r ≤ 1) :
    ((List.range n).map fun i => (mkBin ps alpha n i).count).sum =
      ps.length := by
  induction ps with
  | nil =>
      rw [List.length_nil]
      apply List.sum_eq_zero
      intro x hx
      obtain ⟨i, _, rfl⟩ := List.mem_map.mp hx
      simp [mkBin]
  | cons q ps ih =>
      obtain ⟨r, rfl, h0, h1⟩ := hps q (List.mem_cons_self _ _)
      have hps' := fun x hx => hps x (List.mem_cons_of_mem _ hx)
      have hmap : ((List.range n).map fun i =>
          (mkBin (F.fin r :: ps) alpha n i).count) =
          (List.range n).map fun i => (mkBin ps alpha n i).count +
            (if binPredR n i r then 1 else 0) := by
        apply List.map_congr_left
        intro i _
        exact mkBin_count_cons r ps alpha n i
      rw [hmap, sum_map_add_nat, ih hps']
      obtain ⟨i₀, hi₀, hP, huniq⟩ := binPredR_exists_unique n hn r h0 h1
      rw [sum_indicator_eq_one i₀ hP n hi₀ huniq, List.length_cons]

theorem hist_getD (ps : List F) (alpha : F) (n i : ℕ) (h : i < n) :
    (create_p_value_histogram ps alpha n).getD i default =
      mkBin ps alpha n i := by
  rw [create_p_value_histogram,
    List.getD_eq_getElem _ _ (by simpa using h)]
  simp

/-- C3: the histogram has exactly `num_bins` bins in ascending `bin_start`
order, each of width `1/num_bins`, each marked significant iff its right
edge is `≤ alpha`; all bins but the last count their values closed-open,
the last closed-closed with right edge `1`; and for p-values confined to
`[0,1]` the bin counts sum to the input length. -/
theorem c3_histogram (ps : List F) (alpha : F) (n : ℕ) (hn : 1 ≤ n)
    (hps : ∀ q ∈ ps, ∃ r : ℝ, q = F.fin r ∧ 0 ≤ r ∧ r ≤ 1) :
    (create_p_value_histogram ps alpha n).length = n ∧
    ((create_p_value_histogram ps alpha n).map (·.bin_start)).Pairwise F.lt ∧
    (∀ b ∈ create_p_value_histogram ps alpha n,
      b.bin_end = F.add b.bin_start (F.fin (1 / (n : ℝ)))) ∧
    (∀ b ∈ create_p_value_histogram ps alpha n,
      b.significant = true ↔ F.le b.bin_end alpha) ∧
    (∀ i, i + 1 < n →
      ((create_p_value_histogram ps alpha n).getD i default).count =
        ps.countP fun p => decide (F.le (F.fin ((i : ℝ) * (1 / (n : ℝ)))) p ∧
          F.lt p (F.fin (((i : ℝ) + 1) * (1 / (n : ℝ)))))) ∧
    (((create_p_value_histogram ps alpha n).getD (n - 1) default).count =
      ps.countP fun p =>
        decide (F.le (F.fin (((n - 1 : ℕ) : ℝ) * (1 / (n : ℝ)))) p ∧
          F.le p (F.fin 1))) ∧
    ((create_p_value_histogram ps alpha n).map (·.count)).sum = ps.length := by
  have hnr : (0 : ℝ) < (n : ℝ) := by exact_mod_cast hn
  refine ⟨by simp [create_p_value_histogram], ?_, ?_, ?_, ?_, ?_, ?_⟩
  · rw [create_p_value_histogram, List.map_map]
    refine List.Pairwise.map _ ?_ (List.pairwise_lt_range n)
    intro i j hij
    have hc : (i : ℝ) < (j : ℝ) := by exact_mod_cast hij
    have : (i : ℝ) * (1 / (n : ℝ)) < (j : ℝ) * (1 / (n : ℝ)) :=
      mul_lt_mul_of_pos_right hc (by positivity)
    simpa [mkBin, F.lt] using this
  · intro b hb
    rw [create_p_value_histogram] at hb
    obtain ⟨i, _, rfl⟩ := List.mem_map.mp hb
    simp only [mkBin, F.add_fin]
    congr 1
    ring
  · intro b hb
    rw [create_p_value_histogram] at hb
    obtain ⟨i, _, rfl⟩ := List.mem_map.mp hb
    simp [mkBin]
  · intro i hi
    rw [hist_getD ps alpha n i (by omega)]
    have hne : i ≠ n - 1 := by omega
    simp only [mkBin, if_neg hne]
  · rw [hist_getD ps alpha n (n - 1) (by omega)]
    simp only [mkBin, eq_self_iff_true, if_true]
    apply countP_ext
    intro x
    apply decide_eq_decide.mpr
    have hc : (((n - 1 : ℕ) : ℝ) + 1) * (1 / (n : ℝ)) = 1 := by
      rw [Nat.cast_sub hn, Nat.cast_one, sub_add_cancel, mul_one_div,
        div_self (ne_of_gt hnr)]
    rw [hc]
  · rw [create_p_value_histogram, List.map_map]
    exact hist_count_sum ps alpha n hn hps

/-- Witness for C3 on one p-value `1/2` with two bins. -/
theorem c3_histogram_witness :
    1 ≤ 2 ∧
    ((create_p_value_histogram [F.fin (1 / 2)] (F.fin (1 / 20)) 2).map
      (·.count)).sum = 1 := by
  refine ⟨by norm_num, ?_⟩
  have h := (c3_histogram [F.fin (1 / 2)] (F.fin (1 / 20)) 2 (by norm_num)
    (by
      intro q hq
      rw [List.mem_singleton] at hq
      exact ⟨1 / 2, hq, by norm_num, by norm_num⟩)).2.2.2.2.2.2
  simpa using h

end StatDash
